import Mathlib

/-!
Verification of the phi terminal agent against its design specification.

Each section shallowly embeds one component of the source tree:
* `src/tools/edit-file.ts` — single-occurrence text replacement and the
  contiguous-region diff generator;
* `src/tools/bash.ts` — the bounded subprocess output capture and the
  report builder of the `close` handler;
* `src/ai.ts` — the agent loop (`streamResponse`) with its sequential
  tool dispatch and synthetic result turn;
* `src/index.tsx` — the streaming content reducer of `App.handleSubmit`;
* `src/tools/grep.ts` and `src/tools/glob.ts` — the capped traversal
  engines.

File contents are `List Char`, chunk streams are lists of strings, and
external collaborators (regular-expression engine, JSON parser, file
system) are abstract parameters, exactly as they are external libraries
in the source.
-/

set_option autoImplicit false
set_option maxHeartbeats 1000000

namespace Phi

/-! ### Section 1: `edit-file.ts` — string replacement (`editFileTool.run`)

The tool reads the file content, checks `content.includes(old_string)`,
counts occurrences as `content.split(old_string).length - 1`, rejects
`old_string === new_string`, and otherwise splices `new_string` at
`content.indexOf(old_string)`. -/

/-- Boolean test that `p` is an initial segment of `l`, the comparison
JavaScript performs character by character when matching a substring at a
fixed position. -/
def startsWithL : List Char → List Char → Bool
  | _, [] => true
  | [], _ :: _ => false
  | a :: as2, b :: bs2 => a == b && startsWithL as2 bs2

/-- `old` occurs in `content` at character position `i`. -/
def occursAt (content old : List Char) (i : Nat) : Prop :=
  i + old.length ≤ content.length ∧ startsWithL (content.drop i) old = true

instance occursAt.decidable (content old : List Char) (i : Nat) :
    Decidable (occursAt content old i) :=
  inferInstanceAs (Decidable (_ ∧ _))

/-- `content.includes(old)` of JavaScript: some position matches.  On an
empty content it still accepts the empty pattern, as `"".includes("")` is
`true`. -/
def includesSub : List Char → List Char → Bool
  | [], old => startsWithL [] old
  | c :: rest, old => startsWithL (c :: rest) old || includesSub rest old

/-- `content.indexOf(old)`, meaningful whenever `includesSub` holds. -/
def indexOfSub : List Char → List Char → Nat
  | [], _ => 0
  | c :: rest, old =>
    if startsWithL (c :: rest) old then 0 else indexOfSub rest old + 1

/-- Number of non-overlapping occurrences of `old`, scanning left to
right and skipping `old.length` characters after each match: this is the
count `content.split(old).length - 1` computes for a non-empty separator.
The `skip` argument carries how many characters of the last match are
still to be jumped over. -/
def nonOverlapAux (old : List Char) : List Char → Nat → Nat
  | [], _ => 0
  | _ :: rest, skip + 1 => nonOverlapAux old rest skip
  | c :: rest, 0 =>
    if !old.isEmpty && startsWithL (c :: rest) old then
      1 + nonOverlapAux old rest (old.length - 1)
    else
      nonOverlapAux old rest 0

/-- The occurrence count of `editFileTool.run`:
`content.split(old_string).length - 1`.  JavaScript splits on the empty
separator into one part per character, so that case yields
`content.length - 1` (which is `-1` on empty content). -/
def splitOccurrences (content old : List Char) : Int :=
  if old.isEmpty then (content.length : Int) - 1
  else (nonOverlapAux old content 0 : Nat)

/-- Result of one run of the edit tool on a file that exists: whether the
edit was applied, and the file content afterwards (unchanged on any
error return). -/
structure EditOutcome where
  success : Bool
  content : List Char
deriving DecidableEq

/-- The decision chain of `editFileTool.run` on the file content: the
missing-string error, the ambiguity error, the no-op guard, then the
splice `content.slice(0, idx) + new_string + content.slice(idx +
old_string.length)` at `idx = content.indexOf(old_string)`. -/
def editFileRun (content old new : List Char) : EditOutcome :=
  if !includesSub content old then ⟨false, content⟩
  else if 1 < splitOccurrences content old then ⟨false, content⟩
  else if old = new then ⟨false, content⟩
  else
    let idx := indexOfSub content old
    ⟨true, content.take idx ++ new ++ content.drop (idx + old.length)⟩

/-! ### Section 2: `edit-file.ts` — the diff generator (`generateDiff`)

`generateDiff` splits both contents into line arrays, scans forward for
the first differing line (`startIdx`), scans backward while the tails
agree and both indices stay above `startIdx`, and reports
`oldLines[startIdx..oldEndIdx]` as removed and
`newLines[startIdx..newEndIdx]` as added.  We model the line arrays
directly and the two scans as recursions; `backScanAux` walks the two
reversed arrays, its guard `start < as2.length` being exactly the
`oldEndIdx > startIdx` guard of the source. -/

/-- Forward scan of `generateDiff`: the first index at which the two line
arrays differ (their common prefix length). -/
def startIdxOf : List String → List String → Nat
  | a :: as2, b :: bs2 => if a = b then startIdxOf as2 bs2 + 1 else 0
  | _, _ => 0

/-- Backward scan of `generateDiff`, expressed on the reversed line
arrays: the number of decrements the `while` loop performs, each guarded
by `oldEndIdx > startIdx && newEndIdx > startIdx` and by equality of the
current lines. -/
def backScanAux (start : Nat) : List String → List String → Nat
  | a :: as2, b :: bs2 =>
    if start < as2.length ∧ start < bs2.length ∧ a = b then
      backScanAux start as2 bs2 + 1
    else 0
  | _, _ => 0

/-- Number of matched tail lines that the backward scan excludes from the
changed region. -/
def diffBack (o n : List String) : Nat :=
  backScanAux (startIdxOf o n) o.reverse n.reverse

/-- Lines the diff reports with a `-` marker: `oldLines[startIdx..oldEndIdx]`,
where `oldEndIdx = o.length - 1 - diffBack`. -/
def removedLines (o n : List String) : List String :=
  (o.drop (startIdxOf o n)).take (o.length - diffBack o n - startIdxOf o n)

/-- Lines the diff reports with a `+` marker: `newLines[startIdx..newEndIdx]`. -/
def addedLines (o n : List String) : List String :=
  (n.drop (startIdxOf o n)).take (n.length - diffBack o n - startIdxOf o n)

/-- Applying the diff as the claim describes: delete the removed lines at
their reported positions (`startIdx+1 .. oldEndIdx+1`, 1-indexed) and
insert the added lines there. -/
def applyDiff (o n : List String) : List String :=
  o.take (startIdxOf o n) ++ addedLines o n ++ o.drop (o.length - diffBack o n)

/-! ### Section 3: `bash.ts` — bounded capture and the report builder

The `data` listeners append a chunk to the captured stream only when the
whole chunk still fits under `MAX_OUTPUT_SIZE`; the `close` handler then
assembles the report from the timeout banner, the two captures, the
`(no output)` placeholder and the exit-code annotation. -/

/-- The `MAX_OUTPUT_SIZE` constant of `bash.ts`: 10 MiB. -/
def MAX_OUTPUT_SIZE : Nat := 10 * 1024 * 1024

/-- One `data` listener step:
`if (acc.length + chunk.length <= MAX_OUTPUT_SIZE) acc += chunk`. -/
def captureStep (acc chunk : String) : String :=
  if acc.length + chunk.length ≤ MAX_OUTPUT_SIZE then acc ++ chunk else acc

/-- The captured stream after the process produced the given chunks in
order, starting from an empty buffer. -/
def capture (chunks : List String) : String := chunks.foldl captureStep ""

/-- Display of a JavaScript exit code; `none` models `null` (killed by
signal), in which case the code never reaches the report. -/
def exitCodeStr : Option Int → String
  | some n => toString n
  | none => "null"

/-- The timeout banner `[Command timed out after {timeout}s]\n\n`. -/
def timeoutBanner (timeoutS : Nat) : String :=
  "[Command timed out after " ++ toString timeoutS ++ "s]\n\n"

/-- The exit-code annotation `\n\n[Exit code: {code}]`. -/
def exitNote (code : Option Int) : String :=
  "\n\n[Exit code: " ++ exitCodeStr code ++ "]"

/-- The report assembled by the `close` handler of `bashTool.run`, in
source order: timeout banner when killed, stdout when non-empty, a
separating newline when stderr follows a non-empty capture not already
ending in a newline, stderr when non-empty, the `(no output)`
placeholder when everything so far is empty, and finally the exit-code
annotation when the process was not killed and exited non-zero. -/
def buildReport (timeoutS : Nat) (killed : Bool) (so se : String)
    (code : Option Int) : String :=
  let o1 := if killed then timeoutBanner timeoutS else ""
  let o2 := if so ≠ "" then o1 ++ so else o1
  let o3 := if se ≠ ""
    then (if o2 ≠ "" ∧ ¬ (o2.endsWith "\n") then o2 ++ "\n" else o2) ++ se
    else o2
  let o4 := if o3 = "" then "(no output)" else o3
  if code ≠ some 0 ∧ code ≠ none ∧ killed = false then o4 ++ exitNote code
  else o4

/-! ### Section 4: `ai.ts` — the agent loop (`streamResponse`)

The loop streams one model response per round, filters its content for
`tool_use` blocks, and either stops (none found, saving the messages
accumulated so far) or executes every invocation strictly in order,
yielding a `tool_execution_start`/`tool_execution_end` pair around each
and appending one synthetic user turn holding all results.  The model
service is abstracted as a finite script of final-message contents; the
low-level stream events it relays unmodified are outside the loop's own
behaviour and are not modelled. -/

/-- One tool invocation block of a model response (`type: "tool_use"`). -/
structure ToolUseB where
  id : String
  tname : String
  input : String
deriving DecidableEq

/-- One content block of a final model message. -/
inductive MBlock
  | text (s : String)
  | toolUse (tu : ToolUseB)
deriving DecidableEq

/-- `finalMessage.content.filter(block => block.type === "tool_use")`. -/
def toolUsesOf (blocks : List MBlock) : List ToolUseB :=
  blocks.filterMap (fun b => match b with
    | .text _ => none
    | .toolUse tu => some tu)

/-- The `toolMap` registry: tool name to tool function; the function
returns its result string or throws (`Except.error`). -/
def ToolMap : Type := String → Option (String → Except String String)

/-- A `tool_result` entry of the synthetic user turn. -/
structure ToolResultB where
  tool_use_id : String
  content : String
  is_error : Bool
deriving DecidableEq

/-- The custom events `streamResponse` yields around tool execution. -/
inductive AEvent
  | toolStart (id tname : String)
  | toolEnd (id result : String) (isError : Bool)
deriving DecidableEq

/-- Transcript turns as the loop accumulates them in `messages`. -/
inductive TMsg
  | user (s : String)
  | userResults (rs : List ToolResultB)
  | assistant (blocks : List MBlock)
deriving DecidableEq

/-- Dispatch of one invocation: an unknown name synthesizes a flagged
error result, a thrown error is caught and flagged (`Error: {message}`),
and a normal return is passed through unflagged. -/
def mkToolResult (tm : ToolMap) (tu : ToolUseB) : ToolResultB :=
  match tm tu.tname with
  | none => ⟨tu.id, "Error: Unknown tool " ++ tu.tname, true⟩
  | some f =>
    match f tu.input with
    | .ok r => ⟨tu.id, r, false⟩
    | .error e => ⟨tu.id, "Error: " ++ e, true⟩

/-- Sequential execution of the invocations of one response: the fold
mirrors the `for (const toolUse of toolUses)` loop, emitting the start
event, then the end event carrying the result, and pushing the result. -/
def processTools (tm : ToolMap) (tus : List ToolUseB) :
    List AEvent × List ToolResultB :=
  tus.foldl (fun acc tu =>
    let r := mkToolResult tm tu
    (acc.1 ++ [AEvent.toolStart tu.id tu.tname,
       AEvent.toolEnd tu.id r.content r.is_error],
     acc.2 ++ [r]))
    ([], [])

/-- The start/end event pair one invocation contributes. -/
def toolPairEvents (tm : ToolMap) (tu : ToolUseB) : List AEvent :=
  [AEvent.toolStart tu.id tu.tname,
   AEvent.toolEnd tu.id (mkToolResult tm tu).content (mkToolResult tm tu).is_error]

/-- Observable outcome of one `streamResponse` call: the tool events in
emission order, the transcript as saved, and whether the loop reached
its normal exit. -/
structure LoopOut where
  events : List AEvent
  transcript : List TMsg
  done : Bool
deriving DecidableEq

/-- The tool-use loop of `streamResponse`.  Each round consumes the next
scripted final message.  No tool uses: save the messages accumulated so
far and stop.  Otherwise: push the assistant turn, execute the tools
sequentially, push one synthetic user turn holding all results, and
continue.  An exhausted script models the model service failing to
answer (`done = false`). -/
def agentLoop (tm : ToolMap) : List (List MBlock) → List TMsg → LoopOut
  | [], msgs => ⟨[], msgs, false⟩
  | blocks :: rest, msgs =>
    let tus := toolUsesOf blocks
    if tus.isEmpty then ⟨[], msgs, true⟩
    else
      let out := agentLoop tm rest
        (msgs ++ [TMsg.assistant blocks, TMsg.userResults (processTools tm tus).2])
      ⟨(processTools tm tus).1 ++ out.events, out.transcript, out.done⟩

/-- A small registry used by concrete instances: `echo` returns its
input, `boom` throws, anything else is absent. -/
def sampleToolMap : ToolMap := fun name =>
  if name = "boom" then some (fun _ => Except.error "kaput")
  else if name = "echo" then some (fun s => Except.ok s)
  else none

/-! ### Section 5: `index.tsx` — the streaming content reducer

`App.handleSubmit` folds the event stream into `contentBlocks`: block
starts append a block carrying the API position index (`apiIndex`), text
deltas locate their block with
`contentBlocks.findIndex(b => b.apiIndex === event.index)` and append,
tool-input deltas parse the cumulative partial JSON and replace the
parsed input wholesale (keeping the previous value on a parse failure),
and the tool execution events locate their block by invocation id.  The
JSON parser is the external `JSON.parse`, abstracted as
`parse : String → Option J` over an abstract document type `J`. -/

/-- Streaming events consumed by the reducer; `k` is the API position
index (`event.index`). -/
inductive REvent
  | blockStartText (k : Nat)
  | blockStartTool (k : Nat) (tid tname : String)
  | textDelta (k : Nat) (s : String)
  | inputDelta (k : Nat) (payload : String)
  | execStart (tid : String)
  | execEnd (tid : String) (result : String) (isErr : Bool)
  | messageStop
deriving DecidableEq

/-- A live content block of `contentBlocks`. -/
inductive RBlock (J : Type)
  | text (apiIndex : Nat) (txt : String)
  | tool (apiIndex : Nat) (tid tname : String) (input : J) (isExecuting : Bool)
      (result : Option String) (isError : Option Bool)
deriving DecidableEq

/-- The stored position key of a block. -/
def RBlock.key {J : Type} : RBlock J → Nat
  | .text k _ => k
  | .tool k _ _ _ _ _ _ => k

/-- Text carried by a block: the text of a text block, nothing for a
tool block. -/
def RBlock.textOf {J : Type} : RBlock J → Option String
  | .text _ t => some t
  | .tool _ _ _ _ _ _ _ => none

/-- Parsed input carried by a block: the input of a tool block, nothing
for a text block. -/
def RBlock.inputOf {J : Type} : RBlock J → Option J
  | .text _ _ => none
  | .tool _ _ _ v _ _ _ => some v

/-- `JSON.parse` of a cumulative partial document: a successful parse
replaces the previous value wholesale, a failed parse is discarded and
the previous value kept. -/
def applyInputDelta {J : Type} (parse : String → Option J) (v : J) (payload : String) : J :=
  (parse payload).getD v

/-- Update the first block whose position key matches, mirroring
`contentBlocks.findIndex(b => b.apiIndex === event.index)`; with no
match the event is dropped. -/
def updAtKey {J : Type} (k : Nat) (f : RBlock J → RBlock J) :
    List (RBlock J) → List (RBlock J)
  | [] => []
  | b :: bs => if b.key = k then f b :: bs else b :: updAtKey k f bs

/-- Append a text delta to a text block; a tool block found under the
same key fails the `block.type === "text"` guard and stays unchanged. -/
def textAppendF {J : Type} (s : String) : RBlock J → RBlock J
  | .text k t => .text k (t ++ s)
  | b => b

/-- Replace the parsed input of a tool block; a text block found under
the same key fails the type guard and stays unchanged. -/
def inputReplaceF {J : Type} (parse : String → Option J) (payload : String) :
    RBlock J → RBlock J
  | .tool k i n v ex r er => .tool k i n (applyInputDelta parse v payload) ex r er
  | b => b

/-- Update the first tool block carrying the given invocation id, as
`contentBlocks.find(b => b.type === "tool_use" && b.id === id)` does. -/
def updToolAtId {J : Type} (tid : String) (f : RBlock J → RBlock J) :
    List (RBlock J) → List (RBlock J)
  | [] => []
  | b :: bs =>
    match b with
    | .tool k i n v ex r er =>
      if i = tid then f (.tool k i n v ex r er) :: bs
      else RBlock.tool k i n v ex r er :: updToolAtId tid f bs
    | t => t :: updToolAtId tid f bs

/-- `tool_execution_start`: mark the invocation as executing. -/
def execStartF {J : Type} : RBlock J → RBlock J
  | .tool k i n v _ r er => .tool k i n v true r er
  | b => b

/-- `tool_execution_end`: clear the executing flag, store result and
error flag. -/
def execEndF {J : Type} (res : String) (e : Bool) : RBlock J → RBlock J
  | .tool k i n v _ _ _ => .tool k i n v false (some res) (some e)
  | b => b

/-- One step of the `for await` reducer loop of `handleSubmit`;
`message_stop` leaves `contentBlocks` untouched. -/
def rstep {J : Type} (parse : String → Option J) (j0 : J)
    (bs : List (RBlock J)) : REvent → List (RBlock J)
  | .blockStartText k => bs ++ [.text k ""]
  | .blockStartTool k i n => bs ++ [.tool k i n j0 false none none]
  | .textDelta k s => updAtKey k (textAppendF s) bs
  | .inputDelta k p => updAtKey k (inputReplaceF parse p) bs
  | .execStart i => updToolAtId i execStartF bs
  | .execEnd i r e => updToolAtId i (execEndF r e) bs
  | .messageStop => bs

/-- The reducer: fold the whole event sequence from an empty block
array. -/
def reduceEvents {J : Type} (parse : String → Option J) (j0 : J)
    (evs : List REvent) : List (RBlock J) :=
  evs.foldl (rstep parse j0) []

/-- Text of the first block with position key `k`. -/
def textAtKey {J : Type} (k : Nat) : List (RBlock J) → Option String
  | [] => none
  | b :: bs => if b.key = k then b.textOf else textAtKey k bs

/-- Parsed input of the first block with position key `k`. -/
def inputAtKey {J : Type} (k : Nat) : List (RBlock J) → Option J
  | [] => none
  | b :: bs => if b.key = k then b.inputOf else inputAtKey k bs

/-- Position keys of the blocks, in block order. -/
def keysOf {J : Type} (bs : List (RBlock J)) : List Nat := bs.map RBlock.key

/-- Keys of the block-start events, in emission order. -/
def startKeys : List REvent → List Nat :=
  List.filterMap (fun e => match e with
    | REvent.blockStartText k => some k
    | REvent.blockStartTool k _ _ => some k
    | _ => none)

/-- Well-formedness of an event stream relative to the keys already
started: every block start uses a fresh position key — so a delta keyed
to a previously started block refers to exactly one block — and every
delta is keyed to a previously started block. -/
def wfEvents (K : List Nat) : List REvent → Bool
  | [] => true
  | REvent.blockStartText k :: r => !K.contains k && wfEvents (K ++ [k]) r
  | REvent.blockStartTool k _ _ :: r => !K.contains k && wfEvents (K ++ [k]) r
  | REvent.textDelta k _ :: r => K.contains k && wfEvents K r
  | REvent.inputDelta k _ :: r => K.contains k && wfEvents K r
  | _ :: r => wfEvents K r

/-- The text-delta payloads keyed `k`, in emission order. -/
def textDeltasFor (k : Nat) : List REvent → List String :=
  List.filterMap (fun e => match e with
    | REvent.textDelta k2 s => if k2 = k then some s else none
    | _ => none)

/-- The tool-input delta payloads keyed `k`, in emission order. -/
def inputDeltasFor (k : Nat) : List REvent → List String :=
  List.filterMap (fun e => match e with
    | REvent.inputDelta k2 p => if k2 = k then some p else none
    | _ => none)

/-- A small concrete JSON parser stand-in over `Nat` documents, used by
the witnesses: `"7"` and `"42"` parse, everything else fails. -/
def sampleParse : String → Option Nat := fun s =>
  if s = "7" then some 7 else if s = "42" then some 42 else none

/-! ### Section 6: `grep.ts` and `glob.ts` — capped traversal engines

`grepTool.run` walks the glob scan with a hard-coded file cap
(`maxFiles = 1000`) and a caller-configurable result cap (`maxResults`,
default 50); `globTool.run` walks with a hard-coded scan cap
(`maxScan = 10000`) and a caller-configurable result cap (`maxResults`,
default 100).  The file system and the regular-expression engine are
abstracted: the scan yields a list of entries in traversal order, and a
`matcher` maps one line to the 0-based start columns of its regex
matches in order. -/

/-- `DEFAULT_EXCLUDED_DIRS` of `grep.ts`. -/
def GREP_EXCLUDED_DIRS : List String :=
  ["node_modules", ".git", ".svn", ".hg", "dist", "build", "coverage", ".cache",
   "__pycache__", ".pytest_cache", "venv", ".venv", "env", ".next", ".nuxt",
   "vendor"]

/-- `BINARY_EXTENSIONS` of `grep.ts`. -/
def BINARY_EXTENSIONS : List String :=
  [".png", ".jpg", ".jpeg", ".gif", ".webp", ".ico", ".bmp", ".svg",
   ".mp3", ".mp4", ".wav", ".avi", ".mov", ".mkv",
   ".zip", ".tar", ".gz", ".rar", ".7z",
   ".pdf", ".doc", ".docx", ".xls", ".xlsx",
   ".exe", ".dll", ".so", ".dylib",
   ".woff", ".woff2", ".ttf", ".eot",
   ".sqlite", ".db"]

/-- Index of the last occurrence of a character. -/
def lastIdxOfChar (c : Char) : List Char → Option Nat
  | [] => none
  | x :: xs =>
    match lastIdxOfChar c xs with
    | some i => some (i + 1)
    | none => if x = c then some 0 else none

/-- `file.slice(file.lastIndexOf("."))` lowercased; with no dot,
`lastIndexOf` is `-1` and `slice(-1)` keeps only the final character. -/
def extOf (f : String) : String :=
  let cs := f.toList
  match lastIdxOfChar '.' cs with
  | some i => String.mk ((cs.drop i).map Char.toLower)
  | none => String.mk ((cs.drop (cs.length - 1)).map Char.toLower)

/-- Structural split on a separator character, with the semantics of
JavaScript `file.split("/")` (empty parts preserved); `cur` accumulates
the current part in reverse. -/
def splitCharsOn (c : Char) : List Char → List Char → List (List Char)
  | [], cur => [cur.reverse]
  | x :: xs, cur =>
    if x = c then cur.reverse :: splitCharsOn c xs []
    else splitCharsOn c xs (x :: cur)

/-- `file.split("/")`: the path components. -/
def pathParts (s : String) : List String :=
  (splitCharsOn '/' s.toList []).map String.mk

/-- `part.startsWith(".")`. -/
def startsWithDot (p : String) : Bool :=
  match p.toList with
  | '.' :: _ => true
  | _ => false

/-- The per-entry filters of the grep scan loop: excluded directory
component, hidden component unless requested, binary extension.
Filtered entries are skipped without counting toward the file cap. -/
def grepSkipsFile (includeHidden : Bool) (fname : String) : Bool :=
  let parts := pathParts fname
  parts.any (fun p => GREP_EXCLUDED_DIRS.contains p)
    || (!includeHidden && parts.any startsWithDot)
    || BINARY_EXTENSIONS.contains (extOf fname)

/-- One match record of `grep.ts` (line and column are 1-indexed). -/
structure SearchResult where
  file : String
  line : Nat
  column : Nat
  content : String
deriving DecidableEq

/-- `line.trim()`: strip whitespace from both ends. -/
def trimChars (cs : List Char) : List Char :=
  ((cs.dropWhile Char.isWhitespace).reverse.dropWhile Char.isWhitespace).reverse

/-- `line.trim().slice(0, 200)`: the trimmed, length-capped snippet. -/
def trimTrunc (line : String) : String :=
  String.mk ((trimChars line.toList).take 200)

/-- Inner `while ((match = regex.exec(line)) !== null)` loop: push one
result per match column, stopping once `maxResults` is reached. -/
def pushMatches (maxR : Nat) (fname : String) (lineNo : Nat) (lineTxt : String) :
    List Nat → List SearchResult → List SearchResult
  | [], acc => acc
  | col :: cols, acc =>
    let acc2 := acc ++ [⟨fname, lineNo, col + 1, trimTrunc lineTxt⟩]
    if maxR ≤ acc2.length then acc2
    else pushMatches maxR fname lineNo lineTxt cols acc2

/-- The per-line loop over a file's lines (`i` is the 0-based index). -/
def searchLines (matcher : String → List Nat) (maxR : Nat) (fname : String) :
    Nat → List String → List SearchResult → List SearchResult
  | _, [], acc => acc
  | i, txt :: rest, acc =>
    let acc2 := pushMatches maxR fname (i + 1) txt (matcher txt) acc
    if maxR ≤ acc2.length then acc2
    else searchLines matcher maxR fname (i + 1) rest acc2

/-- `maxFiles = 1000`, the fixed scan cap of `grep.ts`; it is a local
constant, not part of the tool's input schema. -/
def GREP_MAX_FILES : Nat := 1000

/-- Outcome of the grep scan loop: collected results and how many files
were actually searched. -/
structure GrepScanOut where
  results : List SearchResult
  searched : Nat
deriving DecidableEq

/-- The `for await (const file of globPattern.scan(...))` loop of
`grepTool.run` over the entries the glob yields, in order: break before
an entry once 1000 files were searched; skip filtered entries (not
counted); search the rest line by line, breaking once `maxResults`
matches are collected. -/
def grepScan (matcher : String → List Nat) (maxR : Nat) (includeHidden : Bool) :
    List (String × List String) → Nat → List SearchResult → GrepScanOut
  | [], searched, acc => ⟨acc, searched⟩
  | (fname, lines) :: fs, searched, acc =>
    if GREP_MAX_FILES ≤ searched then ⟨acc, searched⟩
    else if grepSkipsFile includeHidden fname then
      grepScan matcher maxR includeHidden fs searched acc
    else
      let acc2 := searchLines matcher maxR fname 0 lines acc
      if maxR ≤ acc2.length then ⟨acc2, searched + 1⟩
      else grepScan matcher maxR includeHidden fs (searched + 1) acc2

/-- Insertion step of the `byFile` map, keyed by file in first-seen
order. -/
def insertGrp : List (String × List SearchResult) → SearchResult
    → List (String × List SearchResult)
  | [], r => [(r.file, [r])]
  | (f, l) :: rest, r =>
    if f = r.file then (f, l ++ [r]) :: rest else (f, l) :: insertGrp rest r

/-- Group results by file in first-seen order. -/
def groupByFile (rs : List SearchResult) : List (String × List SearchResult) :=
  rs.foldl insertGrp []

/-- One `  line:column: content` row of the output. -/
def formatResult (r : SearchResult) : String :=
  "  " ++ toString r.line ++ ":" ++ toString r.column ++ ": " ++ r.content ++ "\n"

/-- One per-file section of the output. -/
def formatGroup (g : String × List SearchResult) : String :=
  g.1 ++ ":\n" ++ String.join (g.2.map formatResult) ++ "\n"

/-- The note `grep.ts` appends when the result cap is hit. -/
def grepLimitNote (maxR : Nat) : String :=
  "[Results limited to " ++ toString maxR
    ++ " matches. Use more specific pattern or path to narrow search]"

/-- Full output of `grepTool.run` over an abstract scan listing. -/
def grepOutput (pattern dirDisplay : String) (matcher : String → List Nat)
    (maxR : Nat) (includeHidden : Bool)
    (files : List (String × List String)) : String :=
  let results := (grepScan matcher maxR includeHidden files 0 []).results
  if results.length = 0 then
    "No matches found for \"" ++ pattern ++ "\" in " ++ dirDisplay
  else
    "Found " ++ toString results.length
      ++ (if maxR ≤ results.length then "+" else "")
      ++ " matches for \"" ++ pattern ++ "\":\n\n"
      ++ String.join ((groupByFile results).map formatGroup)
      ++ (if maxR ≤ results.length then grepLimitNote maxR else "")

/-- `DEFAULT_EXCLUDED_DIRS` of `glob.ts` (it additionally lists `.env`). -/
def GLOB_EXCLUDED_DIRS : List String :=
  ["node_modules", ".git", ".svn", ".hg", "dist", "build", "coverage", ".cache",
   "__pycache__", ".pytest_cache", "venv", ".venv", "env", ".env", ".next",
   ".nuxt", "vendor"]

/-- `maxScan = 10000`, the fixed scan cap of `glob.ts`; it is a local
constant, not part of the tool's input schema. -/
def GLOB_MAX_SCAN : Nat := 10000

/-- One scanned entry with its stat mtime in milliseconds. -/
structure GFile where
  path : String
  mtime : Int
deriving DecidableEq

/-- The per-entry filters of the glob loop: default plus caller-supplied
excluded directory components, hidden components unless requested. -/
def globSkipsFile (includeHidden : Bool) (excludeDirs : List String)
    (path : String) : Bool :=
  let parts := pathParts path
  parts.any (fun p => (GLOB_EXCLUDED_DIRS ++ excludeDirs).contains p)
    || (!includeHidden && parts.any startsWithDot)

/-- Outcome of the glob scan loop. -/
structure GlobScanOut where
  results : List GFile
  scanned : Nat
deriving DecidableEq

/-- The scan loop of `globTool.run`: `scanned` counts every yielded
entry; filtered entries `continue`, which also skips the scan-cap check
at the bottom of the loop body; kept entries are pushed and then the
loop breaks once `scanned` reaches the cap. -/
def globScan (includeHidden : Bool) (excludeDirs : List String) :
    List GFile → Nat → List GFile → GlobScanOut
  | [], scanned, acc => ⟨acc, scanned⟩
  | f :: fs, scanned, acc =>
    if globSkipsFile includeHidden excludeDirs f.path then
      globScan includeHidden excludeDirs fs (scanned + 1) acc
    else
      let acc2 := acc ++ [f]
      if GLOB_MAX_SCAN ≤ scanned + 1 then ⟨acc2, scanned + 1⟩
      else globScan includeHidden excludeDirs fs (scanned + 1) acc2

/-- Stable insertion by mtime descending, modelling
`results.sort((a, b) => b.mtime - a.mtime)`. -/
def insertByMtime (f : GFile) : List GFile → List GFile
  | [] => [f]
  | g :: gs => if g.mtime < f.mtime then f :: g :: gs else g :: insertByMtime f gs

/-- Sort by modification time, most recent first. -/
def sortByMtime (rs : List GFile) : List GFile := rs.foldr insertByMtime []

/-- The truncation note `glob.ts` appends beyond the result cap. -/
def globMoreNote (hidden : Nat) : String :=
  "\n[" ++ toString hidden ++ " more files not shown]"

/-- Full output of `globTool.run` over an abstract scan listing. -/
def globOutput (pattern dirDisplay : String) (includeHidden : Bool)
    (excludeDirs : List String) (maxR : Nat) (files : List GFile) : String :=
  let results := (globScan includeHidden excludeDirs files 0 []).results
  if results.length = 0 then
    "No files found matching pattern \"" ++ pattern ++ "\" in " ++ dirDisplay
  else
    "Found " ++ toString results.length ++ " file(s) matching \"" ++ pattern ++ "\""
      ++ (if maxR < results.length
          then " (showing first " ++ toString maxR ++ ")" else "")
      ++ ":\n\n"
      ++ String.join (((sortByMtime results).take maxR).enum.map
          (fun p => toString (p.1 + 1) ++ ". " ++ p.2.path ++ "\n"))
      ++ (if maxR < results.length
          then globMoreNote (results.length - maxR) else "")

/-- The concrete matcher of the counterexample: a literal search for
the single line `needle`. -/
def sampleMatcher : String → List Nat :=
  fun line => if line = "needle" then [0] else []

/-! ### Theorems -/

theorem startsWithL_length {l p : List Char} (h : startsWithL l p = true) :
    p.length ≤ l.length := by
  induction l generalizing p with
  | nil => cases p with
    | nil => simp
    | cons b bs => simp [startsWithL] at h
  | cons a as2 ih => cases p with
    | nil => simp
    | cons b bs =>
      simp only [startsWithL, Bool.and_eq_true] at h
      simpa [List.length_cons, Nat.succ_le_succ_iff] using ih h.2

theorem startsWithL_append (p t : List Char) : startsWithL (p ++ t) p = true := by
  induction p with
  | nil => cases t <;> rfl
  | cons a as2 ih => simp [startsWithL, ih]

theorem occursAt_cons {rest old : List Char} {j : Nat} {c : Char}
    (h : occursAt rest old j) : occursAt (c :: rest) old (j + 1) := by
  obtain ⟨h1, h2⟩ := h
  refine ⟨?_, by simpa using h2⟩
  simp only [List.length_cons]
  omega

theorem occursAt_cons_succ {rest old : List Char} {j : Nat} {c : Char}
    (h : occursAt (c :: rest) old (j + 1)) : occursAt rest old j := by
  obtain ⟨h1, h2⟩ := h
  refine ⟨?_, by simpa using h2⟩
  simp only [List.length_cons] at h1
  omega

theorem includesSub_of_occursAt {content old : List Char} {i : Nat}
    (h : occursAt content old i) : includesSub content old = true := by
  induction content generalizing i with
  | nil =>
    obtain ⟨h1, h2⟩ := h
    simpa [includesSub] using h2
  | cons c rest ih =>
    cases i with
    | zero => simp only [includesSub, Bool.or_eq_true]; exact Or.inl h.2
    | succ j => simp only [includesSub, Bool.or_eq_true]; exact Or.inr (ih (occursAt_cons_succ h))

theorem occursAt_indexOfSub {content old : List Char}
    (h : includesSub content old = true) :
    occursAt content old (indexOfSub content old) := by
  induction content with
  | nil =>
    refine ⟨?_, by simpa [includesSub] using h⟩
    have : startsWithL [] old = true := by simpa [includesSub] using h
    cases old with
    | nil => simp [indexOfSub]
    | cons b bs => simp [startsWithL] at this
  | cons c rest ih =>
    by_cases hs : startsWithL (c :: rest) old = true
    · refine ⟨?_, by simp [indexOfSub, hs]⟩
      simpa [indexOfSub, hs] using startsWithL_length hs
    · have h' : includesSub rest old = true := by
        simpa [includesSub, hs] using h
      have h2 := @occursAt_cons rest old (indexOfSub rest old) c (ih h')
      simpa [indexOfSub, hs] using h2

theorem indexOfSub_min {content old : List Char} {i : Nat}
    (h : occursAt content old i) : indexOfSub content old ≤ i := by
  induction content generalizing i with
  | nil => simp [indexOfSub]
  | cons c rest ih =>
    by_cases hs : startsWithL (c :: rest) old = true
    · simp [indexOfSub, hs]
    · cases i with
      | zero => exact absurd h.2 hs
      | succ j =>
        have := ih (occursAt_cons_succ h)
        simpa [indexOfSub, hs, Nat.succ_le_succ_iff] using this

theorem nonOverlapAux_one {old : List Char} :
    ∀ (content : List Char) (skip : Nat), 1 ≤ nonOverlapAux old content skip →
      ∃ i, skip ≤ i ∧ occursAt content old i := by
  intro content
  induction content with
  | nil => intro skip h; simp [nonOverlapAux] at h
  | cons c rest ih =>
    intro skip h
    cases skip with
    | succ s =>
      obtain ⟨i, hsi, hocc⟩ := ih s (by simpa [nonOverlapAux] using h)
      exact ⟨i + 1, Nat.succ_le_succ hsi, occursAt_cons hocc⟩
    | zero =>
      by_cases hc : (!old.isEmpty && startsWithL (c :: rest) old) = true
      · have hc' := hc
        rw [Bool.and_eq_true] at hc'
        have hs : startsWithL (c :: rest) old = true := hc'.2
        exact ⟨0, Nat.zero_le 0, ⟨by simpa using startsWithL_length hs, hs⟩⟩
      · obtain ⟨i, _, hocc⟩ := ih 0 (by simpa [nonOverlapAux, hc] using h)
        exact ⟨i + 1, Nat.zero_le _, occursAt_cons hocc⟩

theorem nonOverlapAux_two {old : List Char} :
    ∀ (content : List Char) (skip : Nat), 2 ≤ nonOverlapAux old content skip →
      ∃ i j, i < j ∧ occursAt content old i ∧ occursAt content old j := by
  intro content
  induction content with
  | nil => intro skip h; simp [nonOverlapAux] at h
  | cons c rest ih =>
    intro skip h
    cases skip with
    | succ s =>
      obtain ⟨i, j, hij, hi, hj⟩ := ih s (by simpa [nonOverlapAux] using h)
      exact ⟨i + 1, j + 1, Nat.succ_lt_succ hij, occursAt_cons hi, occursAt_cons hj⟩
    | zero =>
      by_cases hc : (!old.isEmpty && startsWithL (c :: rest) old) = true
      · have hc' := hc
        rw [Bool.and_eq_true] at hc'
        have hs : startsWithL (c :: rest) old = true := hc'.2
        have hne : old.isEmpty = false := by
          simpa using hc'.1
        have hlen : 1 ≤ old.length := by
          cases old with
          | nil => simp [List.isEmpty] at hne
          | cons _ _ => simp
        have h' : 1 ≤ nonOverlapAux old rest (old.length - 1) := by
          have := h
          simp only [nonOverlapAux, hc, if_pos] at this
          omega
        obtain ⟨i, hsi, hocc⟩ := nonOverlapAux_one rest (old.length - 1) h'
        refine ⟨0, i + 1, Nat.succ_pos i, ⟨by simpa using startsWithL_length hs, hs⟩,
          occursAt_cons hocc⟩
      · obtain ⟨i, j, hij, hi, hj⟩ := ih 0 (by simpa [nonOverlapAux, hc] using h)
        exact ⟨i + 1, j + 1, Nat.succ_lt_succ hij, occursAt_cons hi, occursAt_cons hj⟩

theorem startsWithL_nil (l : List Char) : startsWithL l [] = true := by
  cases l <;> rfl

theorem nonOverlapAux_nil_old :
    ∀ (content : List Char) (skip : Nat), nonOverlapAux [] content skip = 0 := by
  intro content
  induction content with
  | nil => intro skip; rfl
  | cons c rest ih =>
    intro skip
    cases skip with
    | zero => simpa [nonOverlapAux] using ih 0
    | succ s => simpa [nonOverlapAux] using ih s

/-- C1, amended.  Success branch: when `oldText` occurs at exactly one
character position and differs from `newText`, the edit succeeds and the
result substitutes `newText` at that position.  Failure branches: when
`oldText` occurs nowhere the edit fails with the content unchanged, and
when the greedy left-to-right count of non-overlapping occurrences (the
count `content.split(old).length - 1` that the code uses) exceeds one the
edit also fails with the content unchanged.  The original claim demanded
failure already for more than one—possibly overlapping—occurrence, which
the code does not do (see the counterexample). -/
theorem editFileRun_correct :
    (∀ pre old suf new : List Char,
      (∀ j, j ≤ (pre ++ old ++ suf).length →
        occursAt (pre ++ old ++ suf) old j → j = pre.length) →
      old ≠ new →
      editFileRun (pre ++ old ++ suf) old new = ⟨true, pre ++ new ++ suf⟩)
    ∧ (∀ content old new : List Char,
      (∀ i, i ≤ content.length → ¬ occursAt content old i) →
      editFileRun content old new = ⟨false, content⟩)
    ∧ (∀ content old new : List Char,
      1 < nonOverlapAux old content 0 →
      editFileRun content old new = ⟨false, content⟩) := by
  refine ⟨?_, ?_, ?_⟩
  · intro pre old suf new huniq hne
    by_cases hoe : old = []
    · subst hoe
      have h1 : occursAt (pre ++ [] ++ suf) [] 0 :=
        ⟨by simp, startsWithL_nil _⟩
      have h2 : occursAt (pre ++ [] ++ suf) [] (pre ++ [] ++ suf).length :=
        ⟨by simp, by rw [List.drop_length]; exact startsWithL_nil _⟩
      have e1 : (0 : Nat) = pre.length := huniq 0 (Nat.zero_le _) h1
      have e2 : (pre ++ [] ++ suf).length = pre.length :=
        huniq _ (Nat.le_refl _) h2
      have hpre : pre = [] := List.length_eq_zero.mp e1.symm
      subst hpre
      have hsuf : suf = [] := by
        have h3 : suf.length = 0 := by simpa using e2
        exact List.length_eq_zero.mp h3
      subst hsuf
      simp only [List.append_nil, List.nil_append] at hne ⊢
      rw [editFileRun]
      rw [if_neg (by decide), if_neg (by decide), if_neg hne]
      simp [indexOfSub]
    · have h0 : occursAt (pre ++ old ++ suf) old pre.length := by
        refine ⟨by simp only [List.length_append]; omega, ?_⟩
        have : (pre ++ (old ++ suf)).drop pre.length = old ++ suf :=
          List.drop_left pre (old ++ suf)
        rw [List.append_assoc, this]
        exact startsWithL_append old suf
      have hinc : includesSub (pre ++ old ++ suf) old = true :=
        includesSub_of_occursAt h0
      have hidx : indexOfSub (pre ++ old ++ suf) old = pre.length := by
        have hocc := occursAt_indexOfSub hinc
        have hle : indexOfSub (pre ++ old ++ suf) old ≤ (pre ++ old ++ suf).length := by
          have := hocc.1; omega
        exact huniq _ hle hocc
      have hso : ¬ (1 < splitOccurrences (pre ++ old ++ suf) old) := by
        have hnoc : nonOverlapAux old (pre ++ old ++ suf) 0 ≤ 1 := by
          by_contra hgt
          push_neg at hgt
          obtain ⟨i, j, hij, hi, hj⟩ := @nonOverlapAux_two old _ 0 hgt
          have hi' : i = pre.length := huniq i (by have := hi.1; omega) hi
          have hj' : j = pre.length := huniq j (by have := hj.1; omega) hj
          omega
        have hie : old.isEmpty = false := by
          cases old with
          | nil => exact absurd rfl hoe
          | cons _ _ => rfl
        simp only [splitOccurrences, hie, if_neg Bool.false_ne_true,
          Bool.false_eq_true, if_false]
        exact_mod_cast Nat.not_lt.mpr hnoc
      rw [editFileRun]
      rw [if_neg (by rw [hinc]; decide), if_neg hso, if_neg hne]
      simp only [hidx]
      have htake : (pre ++ old ++ suf).take pre.length = pre := by
        rw [List.append_assoc]
        exact List.take_left pre (old ++ suf)
      have hdrop : (pre ++ old ++ suf).drop (pre.length + old.length) = suf := by
        have hlen : pre.length + old.length = (pre ++ old).length :=
          (List.length_append _ _).symm
        rw [hlen]
        exact List.drop_left (pre ++ old) suf
      rw [htake, hdrop]
  · intro content old new hnone
    have hinc : includesSub content old = false := by
      by_contra hx
      have hx' : includesSub content old = true := by
        cases h : includesSub content old with
        | true => rfl
        | false => exact absurd h hx
      have hocc := occursAt_indexOfSub hx'
      exact hnone _ (by have := hocc.1; omega) hocc
    simp [editFileRun, hinc]
  · intro content old new hcount
    by_cases hinc : includesSub content old = true
    · have hoe : old.isEmpty = false := by
        cases old with
        | nil => simp [nonOverlapAux_nil_old] at hcount
        | cons _ _ => rfl
      have hso : 1 < splitOccurrences content old := by
        simp only [splitOccurrences, hoe, Bool.false_eq_true, if_false]
        exact_mod_cast hcount
      rw [editFileRun]
      rw [if_neg (by simp [hinc]), if_pos hso]
    · have hinc' : includesSub content old = false := by
        cases h : includesSub content old with
        | true => exact absurd h hinc
        | false => rfl
      simp [editFileRun, hinc']

/-- C1, counterexample to the claim as stated: the content `"aaa"`
contains `"aa"` at two distinct positions, yet the edit succeeds and
rewrites the file to `"ba"`, because the code counts occurrences by
splitting (non-overlapping matches) and finds only one. -/
theorem editFileRun_overlap_counterexample :
    occursAt [ 'a', 'a', 'a' ] [ 'a', 'a' ] 0
    ∧ occursAt [ 'a', 'a', 'a' ] [ 'a', 'a' ] 1
    ∧ editFileRun [ 'a', 'a', 'a' ] [ 'a', 'a' ] [ 'b' ]
        = ⟨true, [ 'b', 'a' ]⟩ := by
  decide

/-- Concrete instance of `editFileRun_correct`: a unique match is
replaced in place, a missing string and an ambiguous string each leave
the content unchanged. -/
theorem editFileRun_correct_witness :
    editFileRun [ 'x', 'y', 'z' ] [ 'y' ] [ 'a', 'b' ]
      = ⟨true, [ 'x', 'a', 'b', 'z' ]⟩
    ∧ editFileRun [ 'x', 'y' ] [ 'q' ] [ 'a' ] = ⟨false, [ 'x', 'y' ]⟩
    ∧ editFileRun [ 'a', 'b', 'a', 'b' ] [ 'a', 'b' ] [ 'c' ]
      = ⟨false, [ 'a', 'b', 'a', 'b' ]⟩ := by
  refine ⟨?_, ?_, ?_⟩
  · have h := editFileRun_correct.1 [ 'x' ] [ 'y' ] [ 'z' ] [ 'a', 'b' ]
      (by decide) (by decide)
    simpa using h
  · exact editFileRun_correct.2.1 _ _ _ (by decide)
  · exact editFileRun_correct.2.2 _ _ _ (by decide)

theorem startIdxOf_le (o n : List String) :
    startIdxOf o n ≤ o.length ∧ startIdxOf o n ≤ n.length := by
  induction o generalizing n with
  | nil =>
    have h0 : startIdxOf [] n = 0 := by cases n <;> rfl
    exact ⟨by rw [h0]; exact Nat.zero_le _, by rw [h0]; exact Nat.zero_le _⟩
  | cons a as2 ih =>
    cases n with
    | nil => simp [startIdxOf]
    | cons b bs2 =>
      by_cases hab : a = b
      · have := ih bs2
        simp only [startIdxOf]
        rw [if_pos hab]
        simp only [List.length_cons]
        omega
      · simp [startIdxOf, hab]

theorem take_startIdxOf (o n : List String) :
    o.take (startIdxOf o n) = n.take (startIdxOf o n) := by
  induction o generalizing n with
  | nil =>
    have h0 : startIdxOf [] n = 0 := by cases n <;> rfl
    rw [h0]
    simp
  | cons a as2 ih =>
    cases n with
    | nil => simp [startIdxOf]
    | cons b bs2 =>
      by_cases hab : a = b
      · simp only [startIdxOf]
        rw [if_pos hab]
        simp only [List.take_succ_cons]
        rw [hab, ih bs2]
      · simp [startIdxOf, hab]

theorem backScanAux_le (s : Nat) (a b : List String) :
    backScanAux s a b ≤ a.length ∧ backScanAux s a b ≤ b.length := by
  induction a generalizing b with
  | nil => simp [backScanAux]
  | cons x as2 ih =>
    cases b with
    | nil => simp [backScanAux]
    | cons y bs2 =>
      by_cases hc : s < as2.length ∧ s < bs2.length ∧ x = y
      · have := ih bs2
        simp only [backScanAux]
        rw [if_pos hc]
        simp only [List.length_cons]
        omega
      · simp [backScanAux, hc]

theorem backScanAux_pos_le (s : Nat) (a b : List String)
    (h : backScanAux s a b ≠ 0) :
    s + backScanAux s a b ≤ a.length ∧ s + backScanAux s a b ≤ b.length := by
  induction a generalizing b with
  | nil => simp [backScanAux] at h
  | cons x as2 ih =>
    cases b with
    | nil => simp [backScanAux] at h
    | cons y bs2 =>
      by_cases hc : s < as2.length ∧ s < bs2.length ∧ x = y
      · by_cases hz : backScanAux s as2 bs2 = 0
        · simp only [backScanAux]
          rw [if_pos hc]
          simp only [hz, List.length_cons]
          have h1 := hc.1
          have h2 := hc.2.1
          omega
        · have := ih bs2 hz
          simp only [backScanAux]
          rw [if_pos hc]
          simp only [List.length_cons]
          omega
      · simp [backScanAux, hc] at h

theorem backScanAux_take (s : Nat) (a b : List String) :
    a.take (backScanAux s a b) = b.take (backScanAux s a b) := by
  induction a generalizing b with
  | nil => simp [backScanAux]
  | cons x as2 ih =>
    cases b with
    | nil => simp [backScanAux]
    | cons y bs2 =>
      by_cases hc : s < as2.length ∧ s < bs2.length ∧ x = y
      · simp only [backScanAux]
        rw [if_pos hc]
        simp only [List.take_succ_cons]
        rw [hc.2.2, ih bs2]
      · simp [backScanAux, hc]

theorem drop_diffBack (o n : List String) :
    o.drop (o.length - diffBack o n) = n.drop (n.length - diffBack o n) := by
  have ho : o.drop (o.length - diffBack o n) = (o.reverse.take (diffBack o n)).reverse := by
    rw [show o.drop (o.length - diffBack o n) = o.rtake (diffBack o n) from rfl,
      List.rtake_eq_reverse_take_reverse]
  have hn : n.drop (n.length - diffBack o n) = (n.reverse.take (diffBack o n)).reverse := by
    rw [show n.drop (n.length - diffBack o n) = n.rtake (diffBack o n) from rfl,
      List.rtake_eq_reverse_take_reverse]
  rw [ho, hn, diffBack, backScanAux_take]

/-- C7: for contents differing in one contiguous region of lines,
deleting the lines the diff reports as removed at their reported
positions and inserting the lines it reports as added turns the old
lines into exactly the new lines. -/
theorem applyDiff_roundtrip (o n : List String)
    (_h : ∃ pre mid1 mid2 suf,
      o = pre ++ mid1 ++ suf ∧ n = pre ++ mid2 ++ suf ∧ mid1 ≠ mid2) :
    applyDiff o n = n := by
  have hsn : startIdxOf o n ≤ n.length := (startIdxOf_le o n).2
  have hKn : diffBack o n ≤ n.length := by
    have h := (backScanAux_le (startIdxOf o n) o.reverse n.reverse).2
    simpa [diffBack] using h
  have hsK : startIdxOf o n ≤ n.length - diffBack o n := by
    by_cases hz : diffBack o n = 0
    · omega
    · have h := (backScanAux_pos_le (startIdxOf o n) o.reverse n.reverse (by
        simpa [diffBack] using hz)).2
      rw [show backScanAux (startIdxOf o n) o.reverse n.reverse = diffBack o n from rfl]
        at h
      simp only [List.length_reverse] at h
      omega
  have harith : startIdxOf o n + (n.length - diffBack o n - startIdxOf o n)
      = n.length - diffBack o n := by omega
  simp only [applyDiff, addedLines]
  rw [take_startIdxOf, drop_diffBack, ← List.take_add, harith]
  exact List.take_append_drop _ _

/-- Concrete instance of `applyDiff_roundtrip` on a one-line change. -/
theorem applyDiff_roundtrip_witness :
    applyDiff ["a", "x", "b"] ["a", "y", "b"] = ["a", "y", "b"] :=
  applyDiff_roundtrip _ _ ⟨["a"], ["x"], ["y"], ["b"], rfl, rfl, by decide⟩

theorem str_empty_append (s : String) : "" ++ s = s := by
  cases s with
  | mk l => rfl

theorem str_append_empty (s : String) : s ++ "" = s := by
  cases s with
  | mk l =>
    show String.mk (l ++ []) = String.mk l
    rw [List.append_nil]

theorem str_append_ne_empty_right (x se : String) (h : se ≠ "") : x ++ se ≠ "" := by
  intro he
  apply h
  cases x with
  | mk lx =>
    cases se with
    | mk ls =>
      have hdata : lx ++ ls = [] := congrArg String.data he
      have : ls = [] := (List.append_eq_nil.mp hdata).2
      rw [this]

theorem str_append_ne_empty_left (x y : String) (h : x ≠ "") : x ++ y ≠ "" := by
  intro he
  apply h
  cases x with
  | mk lx =>
    cases y with
    | mk ly =>
      have hdata : lx ++ ly = [] := congrArg String.data he
      have : lx = [] := (List.append_eq_nil.mp hdata).1
      rw [this]

theorem timeoutBanner_ne_empty (timeoutS : Nat) : timeoutBanner timeoutS ≠ "" :=
  str_append_ne_empty_right _ _ (by decide)

theorem str_foldl_append (l : List String) :
    ∀ x y : String, List.foldl (· ++ ·) (x ++ y) l = x ++ List.foldl (· ++ ·) y l := by
  induction l with
  | nil => intro x y; rfl
  | cons z zs ihz =>
    intro x y
    simp only [List.foldl_cons]
    rw [String.append_assoc, ihz]

theorem str_join_cons (c : String) (l : List String) :
    String.join (c :: l) = c ++ String.join l := by
  rw [show String.join (c :: l) = List.foldl (· ++ ·) "" (c :: l) from rfl,
    show String.join l = List.foldl (· ++ ·) "" l from rfl,
    List.foldl_cons, str_empty_append]
  have h := str_foldl_append l c ""
  rw [str_append_empty] at h
  exact h

theorem capture_le_aux (chunks : List String) :
    ∀ acc : String, acc.length ≤ MAX_OUTPUT_SIZE →
      (chunks.foldl captureStep acc).length ≤ MAX_OUTPUT_SIZE := by
  induction chunks with
  | nil => intro acc h; simpa using h
  | cons c rest ih =>
    intro acc h
    simp only [List.foldl_cons]
    apply ih
    rw [captureStep]
    by_cases hc : acc.length + c.length ≤ MAX_OUTPUT_SIZE
    · rw [if_pos hc, String.length_append]
      exact hc
    · rw [if_neg hc]
      exact h

theorem capture_join_aux (chunks : List String) :
    ∀ acc : String, ∃ kept : List String,
      kept.Sublist chunks ∧ chunks.foldl captureStep acc = acc ++ String.join kept := by
  induction chunks with
  | nil =>
    intro acc
    exact ⟨[], List.Sublist.refl _, by simp [String.join, str_append_empty]⟩
  | cons c rest ih =>
    intro acc
    by_cases hc : acc.length + c.length ≤ MAX_OUTPUT_SIZE
    · obtain ⟨kept, hsub, heq⟩ := ih (acc ++ c)
      refine ⟨c :: kept, List.Sublist.cons₂ c hsub, ?_⟩
      simp only [List.foldl_cons, captureStep, if_pos hc]
      rw [heq, str_join_cons, String.append_assoc]
    · obtain ⟨kept, hsub, heq⟩ := ih acc
      refine ⟨kept, List.Sublist.cons c hsub, ?_⟩
      simp only [List.foldl_cons, captureStep, if_neg hc]
      exact heq

/-- C10: the per-stream capture works at whole-chunk granularity — the
captured stream never exceeds 10 MiB and is the concatenation of a
subsequence of the arriving chunks; and concretely, a chunk one byte over
the cap is dropped in full while a later smaller chunk is still
appended, so the capture is not a prefix of the process output. -/
theorem capture_chunk_granularity :
    (∀ chunks : List String,
      (capture chunks).length ≤ MAX_OUTPUT_SIZE
      ∧ ∃ kept : List String, kept.Sublist chunks ∧ capture chunks = String.join kept)
    ∧ capture [String.mk (List.replicate (MAX_OUTPUT_SIZE + 1) 'a'), "b"] = "b" := by
  constructor
  · intro chunks
    refine ⟨capture_le_aux chunks "" (by simp), ?_⟩
    obtain ⟨kept, hsub, heq⟩ := capture_join_aux chunks ""
    exact ⟨kept, hsub, by rw [capture, heq, str_empty_append]⟩
  · have hbig : (String.mk (List.replicate (MAX_OUTPUT_SIZE + 1) 'a')).length
        = MAX_OUTPUT_SIZE + 1 := by
      show (List.replicate (MAX_OUTPUT_SIZE + 1) 'a').length = MAX_OUTPUT_SIZE + 1
      exact List.length_replicate _ _
    have h1 : captureStep "" (String.mk (List.replicate (MAX_OUTPUT_SIZE + 1) 'a')) = "" := by
      rw [captureStep, if_neg]
      rw [hbig]
      decide
    have h2 : captureStep "" "b" = "b" := by decide
    show List.foldl captureStep "" _ = "b"
    rw [List.foldl_cons, h1, List.foldl_cons, h2, List.foldl_nil]

theorem if_append_collapse (X E : String) (cond : Prop) [Decidable cond] :
    (if cond then X ++ E else X) = X ++ (if cond then E else "") := by
  by_cases h : cond
  · rw [if_pos h, if_pos h]
  · rw [if_neg h, if_neg h, String.append_empty]

theorem sep_collapse (p se : String) :
    (if se ≠ "" then (if p ≠ "" ∧ ¬ (p.endsWith "\n") then p ++ "\n" else p) ++ se else p)
      = p ++ (if se ≠ "" ∧ p ≠ "" ∧ ¬ (p.endsWith "\n") then "\n" else "") ++ se := by
  by_cases hse : se = ""
  · have h1 : ¬ (se ≠ "") := by simpa using hse
    rw [if_neg h1, if_neg (fun hx => h1 hx.1)]
    subst hse
    rw [String.append_empty, String.append_empty]
  · rw [if_pos hse]
    by_cases h2 : p ≠ "" ∧ ¬ (p.endsWith "\n")
    · rw [if_pos h2, if_pos ⟨hse, h2⟩]
    · rw [if_neg h2, if_neg (fun hx => h2 hx.2), String.append_empty]

theorem so_collapse (a so : String) :
    (if so ≠ "" then a ++ so else a) = a ++ so := by
  by_cases hso : so = ""
  · have h1 : ¬ (so ≠ "") := by simpa using hso
    rw [if_neg h1]
    subst hso
    rw [String.append_empty]
  · rw [if_pos hso]

theorem buildReport_core (t : Nat) (k : Bool) (so se : String) (c : Option Int) :
    ∃ sep : String, (sep = "" ∨ sep = "\n") ∧
      buildReport t k so se c
        = (if (if k then timeoutBanner t else "") ++ so ++ sep ++ se = ""
            then "(no output)"
            else (if k then timeoutBanner t else "") ++ so ++ sep ++ se)
          ++ (if c ≠ some 0 ∧ c ≠ none ∧ k = false then exitNote c else "") := by
  refine ⟨if se ≠ "" ∧ ((if k then timeoutBanner t else "") ++ so) ≠ ""
      ∧ ¬ (((if k then timeoutBanner t else "") ++ so).endsWith "\n") then "\n" else "",
    ?_, ?_⟩
  · by_cases h : se ≠ "" ∧ ((if k then timeoutBanner t else "") ++ so) ≠ ""
        ∧ ¬ (((if k then timeoutBanner t else "") ++ so).endsWith "\n")
    · rw [if_pos h]; right; rfl
    · rw [if_neg h]; left; rfl
  · simp only [buildReport]
    rw [so_collapse, sep_collapse, if_append_collapse]

theorem buildReport_shape (t : Nat) (k : Bool) (so se : String) (c : Option Int) :
    (so = "" → se = "" → k = false →
      buildReport t k so se c
        = "(no output)"
          ++ (if c ≠ some 0 ∧ c ≠ none then exitNote c else ""))
    ∧ (k = true → ∃ rest, buildReport t k so se c = timeoutBanner t ++ rest)
    ∧ ∃ sep : String, (sep = "" ∨ sep = "\n") ∧
        (so ≠ "" ∨ se ≠ "" ∨ k = true →
          buildReport t k so se c
            = (if k then timeoutBanner t else "") ++ so ++ sep ++ se
              ++ (if c ≠ some 0 ∧ c ≠ none ∧ k = false then exitNote c else "")) := by
  refine ⟨?_, ?_, ?_⟩
  · intro hso hse hk
    subst hso; subst hse; subst hk
    have hred : buildReport t false "" "" c
        = if c ≠ some 0 ∧ c ≠ none ∧ false = false
          then "(no output)" ++ exitNote c else "(no output)" := rfl
    rw [hred]
    by_cases hc : c ≠ some 0 ∧ c ≠ none
    · rw [if_pos ⟨hc.1, hc.2, rfl⟩, if_pos hc]
    · rw [if_neg (fun hx => hc ⟨hx.1, hx.2.1⟩), if_neg hc, String.append_empty]
  · intro hk
    subst hk
    obtain ⟨sep, _, heq⟩ := buildReport_core t true so se c
    have hcore : (timeoutBanner t ++ so ++ sep ++ se) ≠ "" :=
      str_append_ne_empty_left _ _ (str_append_ne_empty_left _ _
        (str_append_ne_empty_left _ _ (timeoutBanner_ne_empty t)))
    rw [if_pos rfl] at heq
    rw [if_neg hcore] at heq
    refine ⟨so ++ (sep ++ (se ++ (if c ≠ some 0 ∧ c ≠ none ∧ true = false
      then exitNote c else ""))), ?_⟩
    rw [heq]
    simp only [String.append_assoc]
  · obtain ⟨sep, hsep, heq⟩ := buildReport_core t k so se c
    refine ⟨sep, hsep, ?_⟩
    intro hne
    have hcore : ((if k then timeoutBanner t else "") ++ so ++ sep ++ se) ≠ "" := by
      cases k with
      | true =>
        exact str_append_ne_empty_left _ _ (str_append_ne_empty_left _ _
          (str_append_ne_empty_left _ _ (by rw [if_pos rfl]; exact timeoutBanner_ne_empty t)))
      | false =>
        rcases hne with hso | hse | hkk
        · exact str_append_ne_empty_left _ _ (str_append_ne_empty_left _ _
            (str_append_ne_empty_right _ _ hso))
        · exact str_append_ne_empty_right _ _ hse
        · exact absurd hkk (by decide)
    rw [heq, if_neg hcore]

/-- C4, amended.  The two streams are captured independently, each never
exceeding 10 MiB.  A killed process yields a report starting with the
timeout banner.  The report lays out, in order: the banner (when
killed), the captured stdout, at most one separating newline, the
captured stderr, and the exit-code note exactly when the process was not
killed and its code is non-zero and non-null.  When the combined
captured output is empty and the process was not killed, the report is
the placeholder `(no output)` followed only by that exit-code note — so
it equals the placeholder exactly only when the exit code is `0` or
`null`; the original claim required the bare placeholder regardless of
the exit code, which the code contradicts (see the counterexample). -/
theorem bashReport_correct (outChunks errChunks : List String) (timeoutS : Nat)
    (killed : Bool) (code : Option Int) :
    (capture outChunks).length ≤ MAX_OUTPUT_SIZE
    ∧ (capture errChunks).length ≤ MAX_OUTPUT_SIZE
    ∧ (killed = true → ∃ rest,
        buildReport timeoutS killed (capture outChunks) (capture errChunks) code
          = timeoutBanner timeoutS ++ rest)
    ∧ (capture outChunks = "" → capture errChunks = "" → killed = false →
        buildReport timeoutS killed (capture outChunks) (capture errChunks) code
          = "(no output)"
            ++ (if code ≠ some 0 ∧ code ≠ none then exitNote code else ""))
    ∧ ∃ sep : String, (sep = "" ∨ sep = "\n") ∧
        (capture outChunks ≠ "" ∨ capture errChunks ≠ "" ∨ killed = true →
          buildReport timeoutS killed (capture outChunks) (capture errChunks) code
            = (if killed then timeoutBanner timeoutS else "")
              ++ capture outChunks ++ sep ++ capture errChunks
              ++ (if code ≠ some 0 ∧ code ≠ none ∧ killed = false
                  then exitNote code else "")) := by
  obtain ⟨h1, h2, h3⟩ := buildReport_shape timeoutS killed (capture outChunks)
    (capture errChunks) code
  exact ⟨capture_le_aux outChunks "" (by simp), capture_le_aux errChunks "" (by simp),
    h2, h1, h3⟩

/-- C4, counterexample to the claim as stated: with empty captured
output, a non-killed process exiting 1 produces
`(no output)\n\n[Exit code: 1]`, not exactly the placeholder; and a
killed process with empty output produces the timeout banner, not the
placeholder. -/
theorem bashReport_placeholder_counterexample :
    buildReport 60 false (capture []) (capture []) (some 1)
      = "(no output)\n\n[Exit code: 1]"
    ∧ buildReport 60 false (capture []) (capture []) (some 1) ≠ "(no output)"
    ∧ buildReport 60 true (capture []) (capture []) none ≠ "(no output)" := by
  decide

/-- Concrete instance of `bashReport_correct`. -/
theorem bashReport_correct_witness :
    (capture ["hi"]).length ≤ MAX_OUTPUT_SIZE
    ∧ (∃ rest, buildReport 60 true (capture ["hi"]) (capture []) none
        = timeoutBanner 60 ++ rest)
    ∧ buildReport 60 false (capture []) (capture []) (some 0) = "(no output)" := by
  refine ⟨(bashReport_correct ["hi"] [] 60 true none).1,
    (bashReport_correct ["hi"] [] 60 true none).2.2.1 rfl, ?_⟩
  have h := (bashReport_correct [] [] 60 false (some 0)).2.2.2.1 rfl rfl rfl
  rw [h, if_neg (by simp), String.append_empty]

theorem mkToolResult_id (tm : ToolMap) (tu : ToolUseB) :
    (mkToolResult tm tu).tool_use_id = tu.id := by
  rw [mkToolResult]
  cases hx : tm tu.tname with
  | none => rfl
  | some f =>
    cases hy : f tu.input with
    | ok r => simp only [hy]
    | error e => simp only [hy]

theorem processTools_aux (tm : ToolMap) (tus : List ToolUseB) :
    ∀ (e0 : List AEvent) (r0 : List ToolResultB),
      tus.foldl (fun acc tu =>
        let r := mkToolResult tm tu
        (acc.1 ++ [AEvent.toolStart tu.id tu.tname,
           AEvent.toolEnd tu.id r.content r.is_error],
         acc.2 ++ [r])) (e0, r0)
      = (e0 ++ tus.flatMap (toolPairEvents tm), r0 ++ tus.map (mkToolResult tm)) := by
  induction tus with
  | nil => intro e0 r0; simp
  | cons tu rest ih =>
    intro e0 r0
    simp only [List.foldl_cons, List.flatMap_cons, List.map_cons]
    rw [ih]
    simp [toolPairEvents, List.append_assoc]

theorem processTools_eq (tm : ToolMap) (tus : List ToolUseB) :
    processTools tm tus
      = (tus.flatMap (toolPairEvents tm), tus.map (mkToolResult tm)) := by
  rw [processTools, processTools_aux]
  simp

theorem agentLoop_round_unfold (tm : ToolMap) (blocks : List MBlock)
    (rest : List (List MBlock)) (msgs : List TMsg)
    (h : toolUsesOf blocks ≠ []) :
    agentLoop tm (blocks :: rest) msgs
      = ⟨(processTools tm (toolUsesOf blocks)).1
          ++ (agentLoop tm rest (msgs ++ [TMsg.assistant blocks,
              TMsg.userResults (processTools tm (toolUsesOf blocks)).2])).events,
         (agentLoop tm rest (msgs ++ [TMsg.assistant blocks,
             TMsg.userResults (processTools tm (toolUsesOf blocks)).2])).transcript,
         (agentLoop tm rest (msgs ++ [TMsg.assistant blocks,
             TMsg.userResults (processTools tm (toolUsesOf blocks)).2])).done⟩ := by
  have hne : (toolUsesOf blocks).isEmpty = false := by
    cases hx : toolUsesOf blocks with
    | nil => exact absurd hx h
    | cons a l => rfl
  rw [agentLoop]
  rw [if_neg (by rw [hne]; exact Bool.false_ne_true)]

/-- C2: a response with `N ≥ 1` invocations produces exactly the `N`
start/end pairs, strictly sequentially in invocation order (the event
list is the concatenation of the per-invocation pairs, so every start
precedes its end and pairs never overlap), followed by the events of the
continued loop; the loop continues on a transcript extended by the
assistant turn and exactly one synthetic user turn holding the `N`
results in invocation order, each result carrying its invocation's id. -/
theorem agentLoop_tool_round (tm : ToolMap) (blocks : List MBlock)
    (rest : List (List MBlock)) (msgs : List TMsg)
    (h : toolUsesOf blocks ≠ []) :
    (agentLoop tm (blocks :: rest) msgs).events
      = (toolUsesOf blocks).flatMap (toolPairEvents tm)
        ++ (agentLoop tm rest (msgs ++ [TMsg.assistant blocks,
            TMsg.userResults ((toolUsesOf blocks).map (mkToolResult tm))])).events
    ∧ (agentLoop tm (blocks :: rest) msgs).transcript
      = (agentLoop tm rest (msgs ++ [TMsg.assistant blocks,
          TMsg.userResults ((toolUsesOf blocks).map (mkToolResult tm))])).transcript
    ∧ (agentLoop tm (blocks :: rest) msgs).done
      = (agentLoop tm rest (msgs ++ [TMsg.assistant blocks,
          TMsg.userResults ((toolUsesOf blocks).map (mkToolResult tm))])).done
    ∧ ((toolUsesOf blocks).map (mkToolResult tm)).length = (toolUsesOf blocks).length
    ∧ ∀ i : Fin (toolUsesOf blocks).length,
        (((toolUsesOf blocks).map (mkToolResult tm)).get
            ⟨i, by rw [List.length_map]; exact i.2⟩).tool_use_id
          = ((toolUsesOf blocks).get i).id := by
  rw [agentLoop_round_unfold tm blocks rest msgs h, processTools_eq]
  refine ⟨rfl, rfl, rfl, List.length_map _ _, ?_⟩
  intro i
  simp [mkToolResult_id]

/-- C5, amended: on a response with no tool invocations the loop saves
the transcript exactly as accumulated so far — the assistant turn is
not appended on this path — finishes the event sequence and stops; the
rest of the script is never consumed, so a tool-free response ends the
loop after exactly one round.  The original claim's "appends the
assistant turn to the transcript" is refuted by the counterexample, and
there is no separate "done" event: completion is the normal end of the
event sequence (after the relayed message_stop). -/
theorem agentLoop_toolfree_round (tm : ToolMap) (blocks : List MBlock)
    (rest : List (List MBlock)) (msgs : List TMsg)
    (h : toolUsesOf blocks = []) :
    agentLoop tm (blocks :: rest) msgs = ⟨[], msgs, true⟩ := by
  rw [agentLoop]
  rw [if_pos (by rw [h]; rfl)]

/-- C5, counterexample to the claim as stated: after a tool-free
response the saved transcript does not contain the assistant turn — the
zero-invocation branch of `streamResponse` saves `messages` without
pushing `finalMessage.content`. -/
theorem agentLoop_toolfree_counterexample :
    (agentLoop (fun _ => none) [[MBlock.text "hi"]] [TMsg.user "q"]).transcript
      = [TMsg.user "q"]
    ∧ TMsg.assistant [MBlock.text "hi"] ∉
        (agentLoop (fun _ => none) [[MBlock.text "hi"]] [TMsg.user "q"]).transcript := by
  decide

/-- Concrete instance of `agentLoop_toolfree_round`. -/
theorem agentLoop_toolfree_round_witness :
    agentLoop (fun _ => none) [[MBlock.text "done now"]] [TMsg.user "hello"]
      = ⟨[], [TMsg.user "hello"], true⟩ :=
  agentLoop_toolfree_round _ _ _ _ (by decide)

/-- C6: an invocation with an unregistered name is synthesized into an
error-flagged result rather than thrown; an invocation whose tool
function throws is caught and converted to an error-flagged result; and
either way the round completes and the loop proceeds to the next
scripted response instead of aborting. -/
theorem toolFailure_not_fatal :
    (∀ (tm : ToolMap) (tu : ToolUseB), tm tu.tname = none →
      mkToolResult tm tu = ⟨tu.id, "Error: Unknown tool " ++ tu.tname, true⟩)
    ∧ (∀ (tm : ToolMap) (tu : ToolUseB) (f : String → Except String String) (e : String),
        tm tu.tname = some f → f tu.input = .error e →
        mkToolResult tm tu = ⟨tu.id, "Error: " ++ e, true⟩)
    ∧ (∀ (tm : ToolMap) (blocks : List MBlock) (rest : List (List MBlock))
        (msgs : List TMsg), toolUsesOf blocks ≠ [] →
        (agentLoop tm (blocks :: rest) msgs).done
          = (agentLoop tm rest (msgs ++ [TMsg.assistant blocks,
              TMsg.userResults ((toolUsesOf blocks).map (mkToolResult tm))])).done) := by
  refine ⟨?_, ?_, ?_⟩
  · intro tm tu hnone
    rw [mkToolResult, hnone]
  · intro tm tu f e hsome herr
    rw [mkToolResult, hsome]
    simp only [herr]
  · intro tm blocks rest msgs h
    rw [agentLoop_round_unfold tm blocks rest msgs h, processTools_eq]

/-- Concrete instance of `toolFailure_not_fatal`: an unknown tool and a
throwing tool both produce flagged error results, and the loop moves on
to the next round. -/
theorem toolFailure_not_fatal_witness :
    mkToolResult sampleToolMap ⟨"id1", "nope", "{}"⟩
      = ⟨"id1", "Error: Unknown tool nope", true⟩
    ∧ mkToolResult sampleToolMap ⟨"id2", "boom", "{}"⟩
      = ⟨"id2", "Error: kaput", true⟩
    ∧ (agentLoop sampleToolMap [[MBlock.toolUse ⟨"id1", "nope", "x"⟩]] []).done
      = (agentLoop sampleToolMap []
          ([] ++ [TMsg.assistant [MBlock.toolUse ⟨"id1", "nope", "x"⟩],
            TMsg.userResults ((toolUsesOf [MBlock.toolUse ⟨"id1", "nope", "x"⟩]).map
              (mkToolResult sampleToolMap))])).done := by
  refine ⟨toolFailure_not_fatal.1 sampleToolMap ⟨"id1", "nope", "{}"⟩ rfl,
    toolFailure_not_fatal.2.1 sampleToolMap ⟨"id2", "boom", "{}"⟩
      (fun _ => Except.error "kaput") "kaput" rfl rfl,
    toolFailure_not_fatal.2.2 sampleToolMap _ [] [] (by decide)⟩

/-- Concrete instance of `agentLoop_tool_round`: two invocations produce
two start/end pairs in order and a two-result synthetic user turn, then
a tool-free response stops the loop. -/
theorem agentLoop_tool_round_witness :
    (agentLoop sampleToolMap
      [[MBlock.text "t", MBlock.toolUse ⟨"id2", "echo", "hello"⟩,
        MBlock.toolUse ⟨"id3", "nope", "y"⟩], []] []).events
      = [AEvent.toolStart "id2" "echo", AEvent.toolEnd "id2" "hello" false,
         AEvent.toolStart "id3" "nope",
         AEvent.toolEnd "id3" "Error: Unknown tool nope" true] := by
  have h := (agentLoop_tool_round sampleToolMap
    [MBlock.text "t", MBlock.toolUse ⟨"id2", "echo", "hello"⟩,
      MBlock.toolUse ⟨"id3", "nope", "y"⟩]
    [[]] [] (by decide)).1
  rw [h]
  decide

theorem keysOf_cons {J : Type} (b : RBlock J) (bs : List (RBlock J)) :
    keysOf (b :: bs) = b.key :: keysOf bs := rfl

theorem keysOf_append {J : Type} (l1 l2 : List (RBlock J)) :
    keysOf (l1 ++ l2) = keysOf l1 ++ keysOf l2 :=
  List.map_append _ _ _

theorem textAppendF_key {J : Type} (s : String) (b : RBlock J) :
    (textAppendF s b).key = b.key := by cases b <;> rfl

theorem inputReplaceF_key {J : Type} (parse : String → Option J) (p : String)
    (b : RBlock J) : (inputReplaceF parse p b).key = b.key := by cases b <;> rfl

theorem execStartF_key {J : Type} (b : RBlock J) :
    (execStartF b).key = b.key := by cases b <;> rfl

theorem execEndF_key {J : Type} (r : String) (e : Bool) (b : RBlock J) :
    (execEndF r e b).key = b.key := by cases b <;> rfl

theorem inputReplaceF_textOf {J : Type} (parse : String → Option J) (p : String)
    (b : RBlock J) : (inputReplaceF parse p b).textOf = b.textOf := by cases b <;> rfl

theorem execStartF_textOf {J : Type} (b : RBlock J) :
    (execStartF b).textOf = b.textOf := by cases b <;> rfl

theorem execEndF_textOf {J : Type} (r : String) (e : Bool) (b : RBlock J) :
    (execEndF r e b).textOf = b.textOf := by cases b <;> rfl

theorem textAppendF_inputOf {J : Type} (s : String) (b : RBlock J) :
    (textAppendF s b).inputOf = b.inputOf := by cases b <;> rfl

theorem execStartF_inputOf {J : Type} (b : RBlock J) :
    (execStartF b).inputOf = b.inputOf := by cases b <;> rfl

theorem execEndF_inputOf {J : Type} (r : String) (e : Bool) (b : RBlock J) :
    (execEndF r e b).inputOf = b.inputOf := by cases b <;> rfl

theorem updAtKey_keys {J : Type} (k : Nat) (f : RBlock J → RBlock J)
    (hf : ∀ b, (f b).key = b.key) (bs : List (RBlock J)) :
    keysOf (updAtKey k f bs) = keysOf bs := by
  induction bs with
  | nil => rfl
  | cons b bs ih =>
    rw [updAtKey]
    by_cases hb : b.key = k
    · rw [if_pos hb, keysOf_cons, keysOf_cons, hf b]
    · rw [if_neg hb, keysOf_cons, keysOf_cons, ih]

theorem updToolAtId_keys {J : Type} (tid : String) (f : RBlock J → RBlock J)
    (hf : ∀ b, (f b).key = b.key) (bs : List (RBlock J)) :
    keysOf (updToolAtId tid f bs) = keysOf bs := by
  induction bs with
  | nil => rfl
  | cons b bs ih =>
    cases b with
    | text k t =>
      rw [show updToolAtId tid f (RBlock.text k t :: bs)
          = RBlock.text k t :: updToolAtId tid f bs from rfl,
        keysOf_cons, keysOf_cons, ih]
    | tool k i n v ex r er =>
      by_cases hi : i = tid
      · rw [show updToolAtId tid f (RBlock.tool k i n v ex r er :: bs)
            = if i = tid then f (RBlock.tool k i n v ex r er) :: bs
              else RBlock.tool k i n v ex r er :: updToolAtId tid f bs from rfl,
          if_pos hi, keysOf_cons, keysOf_cons, hf]
      · rw [show updToolAtId tid f (RBlock.tool k i n v ex r er :: bs)
            = if i = tid then f (RBlock.tool k i n v ex r er) :: bs
              else RBlock.tool k i n v ex r er :: updToolAtId tid f bs from rfl,
          if_neg hi, keysOf_cons, keysOf_cons, ih]

theorem textAtKey_append_of_some {J : Type} {k : Nat} {bs : List (RBlock J)} {s : String}
    (h : textAtKey k bs = some s) (b : RBlock J) :
    textAtKey k (bs ++ [b]) = some s := by
  induction bs with
  | nil => simp [textAtKey] at h
  | cons b0 bs ih =>
    rw [textAtKey] at h
    rw [List.cons_append, textAtKey]
    by_cases hb : b0.key = k
    · rw [if_pos hb] at h ⊢
      exact h
    · rw [if_neg hb] at h ⊢
      exact ih h

theorem inputAtKey_append_of_some {J : Type} {k : Nat} {bs : List (RBlock J)} {v : J}
    (h : inputAtKey k bs = some v) (b : RBlock J) :
    inputAtKey k (bs ++ [b]) = some v := by
  induction bs with
  | nil => simp [inputAtKey] at h
  | cons b0 bs ih =>
    rw [inputAtKey] at h
    rw [List.cons_append, inputAtKey]
    by_cases hb : b0.key = k
    · rw [if_pos hb] at h ⊢
      exact h
    · rw [if_neg hb] at h ⊢
      exact ih h

theorem textAtKey_fresh {J : Type} {k : Nat} {bs : List (RBlock J)}
    (h : k ∉ keysOf bs) :
    textAtKey k (bs ++ [RBlock.text k ""]) = some "" := by
  induction bs with
  | nil => simp [textAtKey, RBlock.key, RBlock.textOf]
  | cons b0 bs ih =>
    rw [List.cons_append, textAtKey]
    have hb : b0.key ≠ k := by
      intro he
      exact h (by rw [keysOf_cons, he]; exact List.mem_cons_self _ _)
    rw [if_neg hb]
    exact ih (fun hx => h (by rw [keysOf_cons]; exact List.mem_cons_of_mem _ hx))

theorem inputAtKey_fresh {J : Type} {k : Nat} {bs : List (RBlock J)}
    (i n : String) (j0 : J) (h : k ∉ keysOf bs) :
    inputAtKey k (bs ++ [RBlock.tool k i n j0 false none none]) = some j0 := by
  induction bs with
  | nil => simp [inputAtKey, RBlock.key, RBlock.inputOf]
  | cons b0 bs ih =>
    rw [List.cons_append, inputAtKey]
    have hb : b0.key ≠ k := by
      intro he
      exact h (by rw [keysOf_cons, he]; exact List.mem_cons_self _ _)
    rw [if_neg hb]
    exact ih (fun hx => h (by rw [keysOf_cons]; exact List.mem_cons_of_mem _ hx))

theorem textAtKey_updAtKey_same {J : Type} {k : Nat} {bs : List (RBlock J)} {s : String}
    (s2 : String) (h : textAtKey k bs = some s) :
    textAtKey k (updAtKey k (textAppendF s2) bs) = some (s ++ s2) := by
  induction bs with
  | nil => simp [textAtKey] at h
  | cons b bs ih =>
    rw [textAtKey] at h
    rw [updAtKey]
    by_cases hb : b.key = k
    · rw [if_pos hb] at h
      rw [if_pos hb, textAtKey]
      cases b with
      | text k0 t =>
        have ht : t = s := by
          simpa [RBlock.textOf] using h
        rw [show textAppendF s2 (RBlock.text k0 t) = RBlock.text k0 (t ++ s2) from rfl]
        rw [if_pos (show (RBlock.text k0 (t ++ s2) : RBlock J).key = k from hb), ht]
        rfl
      | tool k0 i n v ex r er => simp [RBlock.textOf] at h
    · rw [if_neg hb] at h
      rw [if_neg hb, textAtKey, if_neg hb]
      exact ih h

theorem textAtKey_updAtKey_preserve {J : Type} (k k2 : Nat) (f : RBlock J → RBlock J)
    (hkey : ∀ b, (f b).key = b.key) (htext : ∀ b, (f b).textOf = b.textOf)
    (bs : List (RBlock J)) :
    textAtKey k (updAtKey k2 f bs) = textAtKey k bs := by
  induction bs with
  | nil => rfl
  | cons b bs ih =>
    rw [updAtKey]
    by_cases hb : b.key = k2
    · rw [if_pos hb, textAtKey, textAtKey, hkey b, htext b]
    · rw [if_neg hb, textAtKey, textAtKey]
      by_cases hk : b.key = k
      · rw [if_pos hk, if_pos hk]
      · rw [if_neg hk, if_neg hk]
        exact ih

theorem textAtKey_updAtKey_other {J : Type} {k k2 : Nat} (f : RBlock J → RBlock J)
    (hkey : ∀ b, (f b).key = b.key) (hne : k2 ≠ k) (bs : List (RBlock J)) :
    textAtKey k (updAtKey k2 f bs) = textAtKey k bs := by
  induction bs with
  | nil => rfl
  | cons b bs ih =>
    rw [updAtKey]
    by_cases hb : b.key = k2
    · rw [if_pos hb, textAtKey, textAtKey, hkey b]
      rw [if_neg (by rw [hb]; exact hne), if_neg (by rw [hb]; exact hne)]
    · rw [if_neg hb, textAtKey, textAtKey]
      by_cases hk : b.key = k
      · rw [if_pos hk, if_pos hk]
      · rw [if_neg hk, if_neg hk]
        exact ih

theorem textAtKey_updToolAtId {J : Type} (k : Nat) (tid : String)
    (f : RBlock J → RBlock J) (hkey : ∀ b, (f b).key = b.key)
    (htext : ∀ b, (f b).textOf = b.textOf) (bs : List (RBlock J)) :
    textAtKey k (updToolAtId tid f bs) = textAtKey k bs := by
  induction bs with
  | nil => rfl
  | cons b bs ih =>
    cases b with
    | text k0 t =>
      rw [show updToolAtId tid f (RBlock.text k0 t :: bs)
          = RBlock.text k0 t :: updToolAtId tid f bs from rfl, textAtKey, textAtKey]
      by_cases hk : (RBlock.text k0 t : RBlock J).key = k
      · rw [if_pos hk, if_pos hk]
      · rw [if_neg hk, if_neg hk]
        exact ih
    | tool k0 i n v ex r er =>
      rw [show updToolAtId tid f (RBlock.tool k0 i n v ex r er :: bs)
          = if i = tid then f (RBlock.tool k0 i n v ex r er) :: bs
            else RBlock.tool k0 i n v ex r er :: updToolAtId tid f bs from rfl]
      by_cases hi : i = tid
      · rw [if_pos hi, textAtKey, textAtKey, hkey, htext]
      · rw [if_neg hi, textAtKey, textAtKey]
        by_cases hk : (RBlock.tool k0 i n v ex r er : RBlock J).key = k
        · rw [if_pos hk, if_pos hk]
        · rw [if_neg hk, if_neg hk]
          exact ih

theorem inputAtKey_updAtKey_same {J : Type} (parse : String → Option J)
    {k : Nat} {bs : List (RBlock J)} {v : J} (p : String)
    (h : inputAtKey k bs = some v) :
    inputAtKey k (updAtKey k (inputReplaceF parse p) bs)
      = some (applyInputDelta parse v p) := by
  induction bs with
  | nil => simp [inputAtKey] at h
  | cons b bs ih =>
    rw [inputAtKey] at h
    rw [updAtKey]
    by_cases hb : b.key = k
    · rw [if_pos hb] at h
      rw [if_pos hb, inputAtKey]
      cases b with
      | text k0 t => simp [RBlock.inputOf] at h
      | tool k0 i n v0 ex r er =>
        have hv : v0 = v := by
          simpa [RBlock.inputOf] using h
        rw [show inputReplaceF parse p (RBlock.tool k0 i n v0 ex r er)
            = RBlock.tool k0 i n (applyInputDelta parse v0 p) ex r er from rfl]
        rw [if_pos (show (RBlock.tool k0 i n (applyInputDelta parse v0 p) ex r er
          : RBlock J).key = k from hb), hv]
        rfl
    · rw [if_neg hb] at h
      rw [if_neg hb, inputAtKey, if_neg hb]
      exact ih h

theorem inputAtKey_updAtKey_preserve {J : Type} (k k2 : Nat) (f : RBlock J → RBlock J)
    (hkey : ∀ b, (f b).key = b.key) (hinp : ∀ b, (f b).inputOf = b.inputOf)
    (bs : List (RBlock J)) :
    inputAtKey k (updAtKey k2 f bs) = inputAtKey k bs := by
  induction bs with
  | nil => rfl
  | cons b bs ih =>
    rw [updAtKey]
    by_cases hb : b.key = k2
    · rw [if_pos hb, inputAtKey, inputAtKey, hkey b, hinp b]
    · rw [if_neg hb, inputAtKey, inputAtKey]
      by_cases hk : b.key = k
      · rw [if_pos hk, if_pos hk]
      · rw [if_neg hk, if_neg hk]
        exact ih

theorem inputAtKey_updAtKey_other {J : Type} {k k2 : Nat} (f : RBlock J → RBlock J)
    (hkey : ∀ b, (f b).key = b.key) (hne : k2 ≠ k) (bs : List (RBlock J)) :
    inputAtKey k (updAtKey k2 f bs) = inputAtKey k bs := by
  induction bs with
  | nil => rfl
  | cons b bs ih =>
    rw [updAtKey]
    by_cases hb : b.key = k2
    · rw [if_pos hb, inputAtKey, inputAtKey, hkey b]
      rw [if_neg (by rw [hb]; exact hne), if_neg (by rw [hb]; exact hne)]
    · rw [if_neg hb, inputAtKey, inputAtKey]
      by_cases hk : b.key = k
      · rw [if_pos hk, if_pos hk]
      · rw [if_neg hk, if_neg hk]
        exact ih

theorem inputAtKey_updToolAtId {J : Type} (k : Nat) (tid : String)
    (f : RBlock J → RBlock J) (hkey : ∀ b, (f b).key = b.key)
    (hinp : ∀ b, (f b).inputOf = b.inputOf) (bs : List (RBlock J)) :
    inputAtKey k (updToolAtId tid f bs) = inputAtKey k bs := by
  induction bs with
  | nil => rfl
  | cons b bs ih =>
    cases b with
    | text k0 t =>
      rw [show updToolAtId tid f (RBlock.text k0 t :: bs)
          = RBlock.text k0 t :: updToolAtId tid f bs from rfl, inputAtKey, inputAtKey]
      by_cases hk : (RBlock.text k0 t : RBlock J).key = k
      · rw [if_pos hk, if_pos hk]
      · rw [if_neg hk, if_neg hk]
        exact ih
    | tool k0 i n v ex r er =>
      rw [show updToolAtId tid f (RBlock.tool k0 i n v ex r er :: bs)
          = if i = tid then f (RBlock.tool k0 i n v ex r er) :: bs
            else RBlock.tool k0 i n v ex r er :: updToolAtId tid f bs from rfl]
      by_cases hi : i = tid
      · rw [if_pos hi, inputAtKey, inputAtKey, hkey, hinp]
      · rw [if_neg hi, inputAtKey, inputAtKey]
        by_cases hk : (RBlock.tool k0 i n v ex r er : RBlock J).key = k
        · rw [if_pos hk, if_pos hk]
        · rw [if_neg hk, if_neg hk]
          exact ih

theorem keysOf_foldl {J : Type} (parse : String → Option J) (j0 : J) :
    ∀ (evs : List REvent) (bs : List (RBlock J)),
      keysOf (evs.foldl (rstep parse j0) bs) = keysOf bs ++ startKeys evs := by
  intro evs
  induction evs with
  | nil => intro bs; simp [startKeys]
  | cons e rest ih =>
    intro bs
    rw [List.foldl_cons, ih]
    cases e with
    | blockStartText k =>
      rw [show rstep parse j0 bs (REvent.blockStartText k)
          = bs ++ [RBlock.text k ""] from rfl, keysOf_append]
      rw [show startKeys (REvent.blockStartText k :: rest) = k :: startKeys rest from rfl]
      simp [keysOf, RBlock.key]
    | blockStartTool k i n =>
      rw [show rstep parse j0 bs (REvent.blockStartTool k i n)
          = bs ++ [RBlock.tool k i n j0 false none none] from rfl, keysOf_append]
      rw [show startKeys (REvent.blockStartTool k i n :: rest) = k :: startKeys rest from rfl]
      simp [keysOf, RBlock.key]
    | textDelta k s =>
      rw [show rstep parse j0 bs (REvent.textDelta k s)
          = updAtKey k (textAppendF s) bs from rfl, updAtKey_keys _ _ (textAppendF_key s)]
      rfl
    | inputDelta k p =>
      rw [show rstep parse j0 bs (REvent.inputDelta k p)
          = updAtKey k (inputReplaceF parse p) bs from rfl,
        updAtKey_keys _ _ (inputReplaceF_key parse p)]
      rfl
    | execStart i =>
      rw [show rstep parse j0 bs (REvent.execStart i)
          = updToolAtId i execStartF bs from rfl, updToolAtId_keys _ _ execStartF_key]
      rfl
    | execEnd i r e =>
      rw [show rstep parse j0 bs (REvent.execEnd i r e)
          = updToolAtId i (execEndF r e) bs from rfl,
        updToolAtId_keys _ _ (execEndF_key r e)]
      rfl
    | messageStop => rfl

theorem wfEvents_append :
    ∀ (l1 : List REvent) (K : List Nat) (l2 : List REvent),
      wfEvents K (l1 ++ l2) = true → wfEvents (K ++ startKeys l1) l2 = true := by
  intro l1
  induction l1 with
  | nil =>
    intro K l2 h
    simpa [startKeys] using h
  | cons e rest ih =>
    intro K l2 h
    cases e with
    | blockStartText k =>
      have h' : (!K.contains k && wfEvents (K ++ [k]) (rest ++ l2)) = true := h
      rw [Bool.and_eq_true] at h'
      have h2 := ih (K ++ [k]) l2 h'.2
      rw [show startKeys (REvent.blockStartText k :: rest) = k :: startKeys rest from rfl]
      rw [show K ++ k :: startKeys rest = (K ++ [k]) ++ startKeys rest from by simp]
      exact h2
    | blockStartTool k i n =>
      have h' : (!K.contains k && wfEvents (K ++ [k]) (rest ++ l2)) = true := h
      rw [Bool.and_eq_true] at h'
      have h2 := ih (K ++ [k]) l2 h'.2
      rw [show startKeys (REvent.blockStartTool k i n :: rest) = k :: startKeys rest from rfl]
      rw [show K ++ k :: startKeys rest = (K ++ [k]) ++ startKeys rest from by simp]
      exact h2
    | textDelta k s =>
      have h' : (K.contains k && wfEvents K (rest ++ l2)) = true := h
      rw [Bool.and_eq_true] at h'
      exact ih K l2 h'.2
    | inputDelta k p =>
      have h' : (K.contains k && wfEvents K (rest ++ l2)) = true := h
      rw [Bool.and_eq_true] at h'
      exact ih K l2 h'.2
    | execStart i => exact ih K l2 h
    | execEnd i r e => exact ih K l2 h
    | messageStop => exact ih K l2 h

theorem textDeltasFor_cons_delta (k k2 : Nat) (s : String) (r : List REvent) :
    textDeltasFor k (REvent.textDelta k2 s :: r)
      = if k2 = k then s :: textDeltasFor k r else textDeltasFor k r := by
  by_cases h : k2 = k
  · rw [textDeltasFor, List.filterMap_cons]
    simp [h]
  · rw [textDeltasFor, List.filterMap_cons]
    simp [h]

theorem inputDeltasFor_cons_delta (k k2 : Nat) (p : String) (r : List REvent) :
    inputDeltasFor k (REvent.inputDelta k2 p :: r)
      = if k2 = k then p :: inputDeltasFor k r else inputDeltasFor k r := by
  by_cases h : k2 = k
  · rw [inputDeltasFor, List.filterMap_cons]
    simp [h]
  · rw [inputDeltasFor, List.filterMap_cons]
    simp [h]

theorem reduce_text_aux {J : Type} (parse : String → Option J) (j0 : J) :
    ∀ (evs : List REvent) (bs : List (RBlock J)) (k : Nat) (s : String),
      wfEvents (keysOf bs) evs = true →
      textAtKey k bs = some s →
      textAtKey k (evs.foldl (rstep parse j0) bs)
        = some (List.foldl (· ++ ·) s (textDeltasFor k evs)) := by
  intro evs
  induction evs with
  | nil =>
    intro bs k s _ h
    simpa [textDeltasFor] using h
  | cons e rest ih =>
    intro bs k s hwf h
    rw [List.foldl_cons]
    cases e with
    | blockStartText k2 =>
      have hwf' : (!(keysOf bs).contains k2 && wfEvents (keysOf bs ++ [k2]) rest) = true := hwf
      rw [Bool.and_eq_true] at hwf'
      have h2 := textAtKey_append_of_some h (RBlock.text k2 "")
      have hkr : wfEvents (keysOf (bs ++ [RBlock.text k2 ""])) rest = true := by
        rw [show keysOf (bs ++ [RBlock.text k2 ""]) = keysOf bs ++ [k2] from by
          rw [keysOf_append]; rfl]
        exact hwf'.2
      exact ih (bs ++ [RBlock.text k2 ""]) k s hkr h2
    | blockStartTool k2 i n =>
      have hwf' : (!(keysOf bs).contains k2 && wfEvents (keysOf bs ++ [k2]) rest) = true := hwf
      rw [Bool.and_eq_true] at hwf'
      have h2 := textAtKey_append_of_some h (RBlock.tool k2 i n j0 false none none)
      have hkr : wfEvents (keysOf (bs ++ [RBlock.tool k2 i n j0 false none none])) rest
          = true := by
        rw [show keysOf (bs ++ [RBlock.tool k2 i n j0 false none none])
            = keysOf bs ++ [k2] from by rw [keysOf_append]; rfl]
        exact hwf'.2
      exact ih (bs ++ [RBlock.tool k2 i n j0 false none none]) k s hkr h2
    | textDelta k2 s2 =>
      have hwf' : ((keysOf bs).contains k2 && wfEvents (keysOf bs) rest) = true := hwf
      rw [Bool.and_eq_true] at hwf'
      by_cases hk : k2 = k
      · subst hk
        have h2 := textAtKey_updAtKey_same s2 h
        have h3 := ih (updAtKey k2 (textAppendF s2) bs) k2 (s ++ s2)
          (by rw [updAtKey_keys _ _ (textAppendF_key s2)]; exact hwf'.2) h2
        rw [textDeltasFor_cons_delta, if_pos rfl]
        exact h3
      · have h2 : textAtKey k (updAtKey k2 (textAppendF s2) bs) = some s := by
          rw [textAtKey_updAtKey_other _ (textAppendF_key s2) hk]
          exact h
        have h3 := ih (updAtKey k2 (textAppendF s2) bs) k s
          (by rw [updAtKey_keys _ _ (textAppendF_key s2)]; exact hwf'.2) h2
        rw [textDeltasFor_cons_delta, if_neg hk]
        exact h3
    | inputDelta k2 p =>
      have hwf' : ((keysOf bs).contains k2 && wfEvents (keysOf bs) rest) = true := hwf
      rw [Bool.and_eq_true] at hwf'
      have h2 : textAtKey k (updAtKey k2 (inputReplaceF parse p) bs) = some s := by
        rw [textAtKey_updAtKey_preserve k k2 _ (inputReplaceF_key parse p)
          (inputReplaceF_textOf parse p)]
        exact h
      exact ih (updAtKey k2 (inputReplaceF parse p) bs) k s
        (by rw [updAtKey_keys _ _ (inputReplaceF_key parse p)]; exact hwf'.2) h2
    | execStart i =>
      have h2 : textAtKey k (updToolAtId i execStartF bs) = some s := by
        rw [textAtKey_updToolAtId k i _ execStartF_key execStartF_textOf]
        exact h
      exact ih (updToolAtId i execStartF bs) k s
        (by rw [updToolAtId_keys _ _ execStartF_key]; exact hwf) h2
    | execEnd i r e =>
      have h2 : textAtKey k (updToolAtId i (execEndF r e) bs) = some s := by
        rw [textAtKey_updToolAtId k i _ (execEndF_key r e) (execEndF_textOf r e)]
        exact h
      exact ih (updToolAtId i (execEndF r e) bs) k s
        (by rw [updToolAtId_keys _ _ (execEndF_key r e)]; exact hwf) h2
    | messageStop => exact ih bs k s hwf h

theorem reduce_input_aux {J : Type} (parse : String → Option J) (j0 : J) :
    ∀ (evs : List REvent) (bs : List (RBlock J)) (k : Nat) (v : J),
      wfEvents (keysOf bs) evs = true →
      inputAtKey k bs = some v →
      inputAtKey k (evs.foldl (rstep parse j0) bs)
        = some (List.foldl (applyInputDelta parse) v (inputDeltasFor k evs)) := by
  intro evs
  induction evs with
  | nil =>
    intro bs k v _ h
    simpa [inputDeltasFor] using h
  | cons e rest ih =>
    intro bs k v hwf h
    rw [List.foldl_cons]
    cases e with
    | blockStartText k2 =>
      have hwf' : (!(keysOf bs).contains k2 && wfEvents (keysOf bs ++ [k2]) rest) = true := hwf
      rw [Bool.and_eq_true] at hwf'
      have h2 := inputAtKey_append_of_some h (RBlock.text k2 "")
      have hkr : wfEvents (keysOf (bs ++ [RBlock.text k2 ""])) rest = true := by
        rw [show keysOf (bs ++ [RBlock.text k2 ""]) = keysOf bs ++ [k2] from by
          rw [keysOf_append]; rfl]
        exact hwf'.2
      exact ih (bs ++ [RBlock.text k2 ""]) k v hkr h2
    | blockStartTool k2 i n =>
      have hwf' : (!(keysOf bs).contains k2 && wfEvents (keysOf bs ++ [k2]) rest) = true := hwf
      rw [Bool.and_eq_true] at hwf'
      have h2 := inputAtKey_append_of_some h (RBlock.tool k2 i n j0 false none none)
      have hkr : wfEvents (keysOf (bs ++ [RBlock.tool k2 i n j0 false none none])) rest
          = true := by
        rw [show keysOf (bs ++ [RBlock.tool k2 i n j0 false none none])
            = keysOf bs ++ [k2] from by rw [keysOf_append]; rfl]
        exact hwf'.2
      exact ih (bs ++ [RBlock.tool k2 i n j0 false none none]) k v hkr h2
    | textDelta k2 s2 =>
      have hwf' : ((keysOf bs).contains k2 && wfEvents (keysOf bs) rest) = true := hwf
      rw [Bool.and_eq_true] at hwf'
      have h2 : inputAtKey k (updAtKey k2 (textAppendF s2) bs) = some v := by
        rw [inputAtKey_updAtKey_preserve k k2 _ (textAppendF_key s2)
          (textAppendF_inputOf s2)]
        exact h
      exact ih (updAtKey k2 (textAppendF s2) bs) k v
        (by rw [updAtKey_keys _ _ (textAppendF_key s2)]; exact hwf'.2) h2
    | inputDelta k2 p =>
      have hwf' : ((keysOf bs).contains k2 && wfEvents (keysOf bs) rest) = true := hwf
      rw [Bool.and_eq_true] at hwf'
      by_cases hk : k2 = k
      · subst hk
        have h2 := inputAtKey_updAtKey_same parse p h
        have h3 := ih (updAtKey k2 (inputReplaceF parse p) bs) k2
          (applyInputDelta parse v p)
          (by rw [updAtKey_keys _ _ (inputReplaceF_key parse p)]; exact hwf'.2) h2
        rw [inputDeltasFor_cons_delta, if_pos rfl]
        exact h3
      · have h2 : inputAtKey k (updAtKey k2 (inputReplaceF parse p) bs) = some v := by
          rw [inputAtKey_updAtKey_other _ (inputReplaceF_key parse p) hk]
          exact h
        have h3 := ih (updAtKey k2 (inputReplaceF parse p) bs) k v
          (by rw [updAtKey_keys _ _ (inputReplaceF_key parse p)]; exact hwf'.2) h2
        rw [inputDeltasFor_cons_delta, if_neg hk]
        exact h3
    | execStart i =>
      have h2 : inputAtKey k (updToolAtId i execStartF bs) = some v := by
        rw [inputAtKey_updToolAtId k i _ execStartF_key execStartF_inputOf]
        exact h
      exact ih (updToolAtId i execStartF bs) k v
        (by rw [updToolAtId_keys _ _ execStartF_key]; exact hwf) h2
    | execEnd i r e =>
      have h2 : inputAtKey k (updToolAtId i (execEndF r e) bs) = some v := by
        rw [inputAtKey_updToolAtId k i _ (execEndF_key r e) (execEndF_inputOf r e)]
        exact h
      exact ih (updToolAtId i (execEndF r e) bs) k v
        (by rw [updToolAtId_keys _ _ (execEndF_key r e)]; exact hwf) h2
    | messageStop => exact ih bs k v hwf h

/-- C3: for a well-formed stream — every text delta keyed to a
previously started block, block starts using fresh position keys so each
such reference names exactly one block — and for any interleaving of
deltas across concurrently open blocks, the block started with key `k`
ends with exactly the concatenation of its own deltas in emission order.
Routing is by position-key lookup: the result depends only on the key,
not on where the block sits in the array. -/
theorem reducer_text_by_key {J : Type} (parse : String → Option J) (j0 : J)
    (e1 e2 : List REvent) (k : Nat)
    (hwf : wfEvents [] (e1 ++ REvent.blockStartText k :: e2) = true) :
    textAtKey k (reduceEvents parse j0 (e1 ++ REvent.blockStartText k :: e2))
      = some (List.foldl (· ++ ·) "" (textDeltasFor k e2)) := by
  rw [reduceEvents, List.foldl_append, List.foldl_cons]
  have hwf1 : wfEvents (startKeys e1) (REvent.blockStartText k :: e2) = true := by
    have h0 := wfEvents_append e1 [] (REvent.blockStartText k :: e2) hwf
    simpa using h0
  have hwf1' : (!(startKeys e1).contains k
      && wfEvents (startKeys e1 ++ [k]) e2) = true := hwf1
  rw [Bool.and_eq_true] at hwf1'
  have hK : keysOf (List.foldl (rstep parse j0) ([] : List (RBlock J)) e1)
      = startKeys e1 := by
    rw [keysOf_foldl]
    rfl
  have hnotin : k ∉ keysOf (List.foldl (rstep parse j0) ([] : List (RBlock J)) e1) := by
    rw [hK]
    intro hmem
    have hc : (startKeys e1).contains k = true := List.elem_eq_true_of_mem hmem
    have h1 := hwf1'.1
    rw [hc] at h1
    simp at h1
  have hwfstep : wfEvents (keysOf (List.foldl (rstep parse j0)
      ([] : List (RBlock J)) e1 ++ [RBlock.text k ""])) e2 = true := by
    rw [keysOf_append, hK]
    exact hwf1'.2
  have hfresh : textAtKey k (List.foldl (rstep parse j0)
      ([] : List (RBlock J)) e1 ++ [RBlock.text k ""]) = some "" :=
    textAtKey_fresh hnotin
  exact reduce_text_aux parse j0 e2
    (List.foldl (rstep parse j0) ([] : List (RBlock J)) e1 ++ [RBlock.text k ""])
    k "" hwfstep hfresh

/-- Concrete instance of `reducer_text_by_key`: deltas of three
concurrently open blocks interleave; block 2 collects exactly its own
two deltas in order. -/
theorem reducer_text_by_key_witness :
    textAtKey 2 (reduceEvents (fun _ => (none : Option Nat)) 0
      ([REvent.blockStartText 7, REvent.textDelta 7 "Q"]
        ++ REvent.blockStartText 2
          :: [REvent.blockStartText 5, REvent.textDelta 2 "ab",
              REvent.textDelta 5 "zz", REvent.textDelta 2 "c",
              REvent.messageStop]))
      = some (List.foldl (· ++ ·) ""
          (textDeltasFor 2 [REvent.blockStartText 5, REvent.textDelta 2 "ab",
            REvent.textDelta 5 "zz", REvent.textDelta 2 "c",
            REvent.messageStop])) :=
  reducer_text_by_key _ _ _ _ _ (by decide)

/-- C9: each tool-input delta payload is a cumulative partial document —
a successful parse replaces the block's parsed input wholesale (the
result is independent of the previously stored value) and a failed
parse is discarded silently with the previous value retained; over a
well-formed stream the tool block's final input is therefore the fold
of its own delta payloads starting from the initial empty input. -/
theorem reducer_input_by_key {J : Type} (parse : String → Option J) (j0 : J)
    (e1 e2 : List REvent) (k : Nat) (tid tname : String)
    (hwf : wfEvents [] (e1 ++ REvent.blockStartTool k tid tname :: e2) = true) :
    inputAtKey k (reduceEvents parse j0 (e1 ++ REvent.blockStartTool k tid tname :: e2))
      = some (List.foldl (applyInputDelta parse) j0 (inputDeltasFor k e2))
    ∧ (∀ (v v2 : J) (p : String) (w : J), parse p = some w →
        applyInputDelta parse v p = w ∧ applyInputDelta parse v2 p = w)
    ∧ (∀ (v : J) (p : String), parse p = none → applyInputDelta parse v p = v) := by
  refine ⟨?_, ?_, ?_⟩
  · rw [reduceEvents, List.foldl_append, List.foldl_cons]
    have hwf1 : wfEvents (startKeys e1) (REvent.blockStartTool k tid tname :: e2)
        = true := by
      have h0 := wfEvents_append e1 [] (REvent.blockStartTool k tid tname :: e2) hwf
      simpa using h0
    have hwf1' : (!(startKeys e1).contains k
        && wfEvents (startKeys e1 ++ [k]) e2) = true := hwf1
    rw [Bool.and_eq_true] at hwf1'
    have hK : keysOf (List.foldl (rstep parse j0) ([] : List (RBlock J)) e1)
        = startKeys e1 := by
      rw [keysOf_foldl]
      rfl
    have hnotin : k ∉ keysOf (List.foldl (rstep parse j0) ([] : List (RBlock J)) e1) := by
      rw [hK]
      intro hmem
      have hc : (startKeys e1).contains k = true := List.elem_eq_true_of_mem hmem
      have h1 := hwf1'.1
      rw [hc] at h1
      simp at h1
    have hwfstep : wfEvents (keysOf (List.foldl (rstep parse j0)
        ([] : List (RBlock J)) e1 ++ [RBlock.tool k tid tname j0 false none none])) e2
        = true := by
      rw [keysOf_append, hK]
      exact hwf1'.2
    have hfresh : inputAtKey k (List.foldl (rstep parse j0)
        ([] : List (RBlock J)) e1 ++ [RBlock.tool k tid tname j0 false none none])
        = some j0 :=
      inputAtKey_fresh tid tname j0 hnotin
    exact reduce_input_aux parse j0 e2
      (List.foldl (rstep parse j0) ([] : List (RBlock J)) e1
        ++ [RBlock.tool k tid tname j0 false none none])
      k j0 hwfstep hfresh
  · intro v v2 p w hp
    constructor <;> (rw [applyInputDelta, hp]; rfl)
  · intro v p hp
    rw [applyInputDelta, hp]
    rfl

/-- Concrete instance of `reducer_input_by_key`: two failed parses are
discarded, two successful ones each replace the input wholesale. -/
theorem reducer_input_by_key_witness :
    inputAtKey 4 (reduceEvents sampleParse 0
      ([] ++ REvent.blockStartTool 4 "idA" "bash"
        :: [REvent.inputDelta 4 "x", REvent.inputDelta 4 "7",
            REvent.inputDelta 4 "oops", REvent.inputDelta 4 "42"]))
      = some (List.foldl (applyInputDelta sampleParse) 0
          (inputDeltasFor 4 [REvent.inputDelta 4 "x", REvent.inputDelta 4 "7",
            REvent.inputDelta 4 "oops", REvent.inputDelta 4 "42"]))
    ∧ applyInputDelta sampleParse 99 "42" = 42
    ∧ applyInputDelta sampleParse 7 "oops" = 7 := by
  obtain ⟨h1, h2, h3⟩ := reducer_input_by_key sampleParse 0 []
    [REvent.inputDelta 4 "x", REvent.inputDelta 4 "7",
      REvent.inputDelta 4 "oops", REvent.inputDelta 4 "42"] 4 "idA" "bash" (by decide)
  exact ⟨h1, (h2 99 0 "42" 42 (by decide)).1, h3 7 "oops" (by decide)⟩

theorem grepScan_searched_le (matcher : String → List Nat) (maxR : Nat) (hid : Bool) :
    ∀ (files : List (String × List String)) (searched : Nat) (acc : List SearchResult),
      searched ≤ GREP_MAX_FILES →
      (grepScan matcher maxR hid files searched acc).searched ≤ GREP_MAX_FILES := by
  intro files
  induction files with
  | nil => intro searched acc h; exact h
  | cons f fs ih =>
    obtain ⟨fname, lines⟩ := f
    intro searched acc h
    simp only [grepScan]
    by_cases h1 : GREP_MAX_FILES ≤ searched
    · rw [if_pos h1]
      exact h
    · rw [if_neg h1]
      by_cases h2 : grepSkipsFile hid fname = true
      · rw [if_pos h2]
        exact ih searched acc h
      · rw [if_neg h2]
        by_cases h3 : maxR ≤ (searchLines matcher maxR fname 0 lines acc).length
        · rw [if_pos h3]
          show searched + 1 ≤ GREP_MAX_FILES
          omega
        · rw [if_neg h3]
          exact ih (searched + 1) _ (by omega)

theorem pushMatches_le (maxR : Nat) (fname : String) (lineNo : Nat) (lineTxt : String) :
    ∀ (cols : List Nat) (acc : List SearchResult), acc.length < maxR →
      (pushMatches maxR fname lineNo lineTxt cols acc).length ≤ maxR := by
  intro cols
  induction cols with
  | nil =>
    intro acc h
    rw [pushMatches]
    omega
  | cons col cols ih =>
    intro acc h
    simp only [pushMatches]
    by_cases h2 : maxR
        ≤ (acc ++ [(⟨fname, lineNo, col + 1, trimTrunc lineTxt⟩ : SearchResult)]).length
    · rw [if_pos h2]
      simp only [List.length_append, List.length_cons, List.length_nil]
      omega
    · rw [if_neg h2]
      exact ih _ (by omega)

theorem searchLines_le (matcher : String → List Nat) (maxR : Nat) (fname : String) :
    ∀ (lines : List String) (i : Nat) (acc : List SearchResult), acc.length < maxR →
      (searchLines matcher maxR fname i lines acc).length ≤ maxR := by
  intro lines
  induction lines with
  | nil =>
    intro i acc h
    rw [searchLines]
    omega
  | cons txt rest ih =>
    intro i acc h
    simp only [searchLines]
    by_cases h2 : maxR ≤ (pushMatches maxR fname (i + 1) txt (matcher txt) acc).length
    · rw [if_pos h2]
      exact pushMatches_le maxR fname (i + 1) txt (matcher txt) acc h
    · rw [if_neg h2]
      exact ih (i + 1) _ (by omega)

theorem grepScan_results_le (matcher : String → List Nat) (maxR : Nat) (hid : Bool) :
    ∀ (files : List (String × List String)) (searched : Nat) (acc : List SearchResult),
      acc.length < maxR →
      (grepScan matcher maxR hid files searched acc).results.length ≤ maxR := by
  intro files
  induction files with
  | nil =>
    intro searched acc h
    show acc.length ≤ maxR
    omega
  | cons f fs ih =>
    obtain ⟨fname, lines⟩ := f
    intro searched acc h
    simp only [grepScan]
    by_cases h1 : GREP_MAX_FILES ≤ searched
    · rw [if_pos h1]
      show acc.length ≤ maxR
      omega
    · rw [if_neg h1]
      by_cases h2 : grepSkipsFile hid fname = true
      · rw [if_pos h2]
        exact ih searched acc h
      · rw [if_neg h2]
        by_cases h3 : maxR ≤ (searchLines matcher maxR fname 0 lines acc).length
        · rw [if_pos h3]
          exact searchLines_le matcher maxR fname lines 0 acc h
        · rw [if_neg h3]
          exact ih (searched + 1) _ (by omega)

theorem globScan_results_le (hid : Bool) (excl : List String) :
    ∀ (fs : List GFile) (scanned : Nat) (acc : List GFile),
      (globScan hid excl fs scanned acc).results.length
        ≤ acc.length
          + (if scanned < GLOB_MAX_SCAN then GLOB_MAX_SCAN - scanned else 1) := by
  intro fs
  induction fs with
  | nil =>
    intro scanned acc
    show acc.length ≤ _
    by_cases h : scanned < GLOB_MAX_SCAN
    · rw [if_pos h]
      omega
    · rw [if_neg h]
      omega
  | cons f fs ih =>
    intro scanned acc
    simp only [globScan]
    by_cases h1 : globSkipsFile hid excl f.path = true
    · rw [if_pos h1]
      have h2 := ih (scanned + 1) acc
      by_cases h3 : scanned < GLOB_MAX_SCAN
      · rw [if_pos h3]
        by_cases h4 : scanned + 1 < GLOB_MAX_SCAN
        · rw [if_pos h4] at h2
          omega
        · rw [if_neg h4] at h2
          omega
      · rw [if_neg h3]
        have h4 : ¬ (scanned + 1 < GLOB_MAX_SCAN) := by omega
        rw [if_neg h4] at h2
        omega
    · rw [if_neg h1]
      by_cases h5 : GLOB_MAX_SCAN ≤ scanned + 1
      · rw [if_pos h5]
        show (acc ++ [f]).length ≤ _
        simp only [List.length_append, List.length_cons, List.length_nil]
        by_cases h3 : scanned < GLOB_MAX_SCAN
        · rw [if_pos h3]
          omega
        · rw [if_neg h3]
      · rw [if_neg h5]
        have h2 := ih (scanned + 1) (acc ++ [f])
        have h4 : scanned + 1 < GLOB_MAX_SCAN := by omega
        rw [if_pos h4] at h2
        simp only [List.length_append, List.length_cons, List.length_nil] at h2
        have h3 : scanned < GLOB_MAX_SCAN := by omega
        rw [if_pos h3]
        omega

/-- C8, amended.  In both engines the result cap is caller-configurable
(`maxResults`) and is reported in the output whenever it is hit; the
scan caps, by contrast, are fixed local constants (1000 files searched
for grep, 10000 entries scanned for glob), are not part of either
tool's input schema, and hitting them is not reported (see the
counterexample).  The caps are still separate, enforced limits: the
grep searched-file counter never exceeds 1000, grep never returns more
than `maxResults` matches, and glob never collects more than 10000
entries. -/
theorem searchCaps_correct :
    (∀ (matcher : String → List Nat) (maxR : Nat) (hid : Bool)
        (files : List (String × List String)),
      (grepScan matcher maxR hid files 0 []).searched ≤ GREP_MAX_FILES)
    ∧ (∀ (matcher : String → List Nat) (maxR : Nat) (hid : Bool)
        (files : List (String × List String)), 1 ≤ maxR →
      (grepScan matcher maxR hid files 0 []).results.length ≤ maxR)
    ∧ (∀ (pattern dir : String) (matcher : String → List Nat) (maxR : Nat)
        (hid : Bool) (files : List (String × List String)),
      1 ≤ maxR → maxR ≤ (grepScan matcher maxR hid files 0 []).results.length →
      ∃ pre, grepOutput pattern dir matcher maxR hid files
        = pre ++ grepLimitNote maxR)
    ∧ (∀ (hid : Bool) (excl : List String) (files : List GFile),
      (globScan hid excl files 0 []).results.length ≤ GLOB_MAX_SCAN)
    ∧ (∀ (pattern dir : String) (hid : Bool) (excl : List String) (maxR : Nat)
        (files : List GFile),
      maxR < (globScan hid excl files 0 []).results.length →
      ∃ pre, globOutput pattern dir hid excl maxR files
        = pre ++ globMoreNote
            ((globScan hid excl files 0 []).results.length - maxR)) := by
  refine ⟨?_, ?_, ?_, ?_, ?_⟩
  · intro matcher maxR hid files
    exact grepScan_searched_le matcher maxR hid files 0 [] (Nat.zero_le _)
  · intro matcher maxR hid files h1
    exact grepScan_results_le matcher maxR hid files 0 [] (by simpa using h1)
  · intro pattern dir matcher maxR hid files h1 h2
    have h0 : ¬ ((grepScan matcher maxR hid files 0 []).results.length = 0) := by
      omega
    simp only [grepOutput]
    rw [if_neg h0, if_pos h2, if_pos h2]
    exact ⟨_, rfl⟩
  · intro hid excl files
    have h := globScan_results_le hid excl files 0 []
    have h0 : (0 : Nat) < GLOB_MAX_SCAN := by decide
    rw [if_pos h0] at h
    simpa using h
  · intro pattern dir hid excl maxR files h1
    have h0 : ¬ ((globScan hid excl files 0 []).results.length = 0) := by omega
    simp only [globOutput]
    rw [if_neg h0, if_pos h1, if_pos h1]
    exact ⟨_, rfl⟩

theorem grepScan_cap_stops (matcher : String → List Nat) (maxR : Nat) (hid : Bool)
    (fs : List (String × List String)) (s : Nat) (acc : List SearchResult)
    (h : GREP_MAX_FILES ≤ s) : grepScan matcher maxR hid fs s acc = ⟨acc, s⟩ := by
  cases fs with
  | nil => rfl
  | cons f fs =>
    obtain ⟨fname, lines⟩ := f
    simp only [grepScan]
    rw [if_pos h]

theorem grepScan_skip_boring :
    ∀ (n : Nat) (rest : List (String × List String)) (s : Nat),
      s + n ≤ GREP_MAX_FILES →
      grepScan sampleMatcher 50 false
          (List.replicate n ("a.txt", ["hay"]) ++ rest) s []
        = grepScan sampleMatcher 50 false rest (s + n) [] := by
  intro n
  induction n with
  | zero =>
    intro rest s h
    simp
  | succ n ih =>
    intro rest s h
    rw [List.replicate_succ, List.cons_append]
    simp only [grepScan]
    have h1 : ¬ (GREP_MAX_FILES ≤ s) := by omega
    rw [if_neg h1]
    have h2 : ¬ (grepSkipsFile false "a.txt" = true) := by decide
    rw [if_neg h2]
    have h3 : searchLines sampleMatcher 50 "a.txt" 0 ["hay"] [] = [] := by decide
    rw [h3]
    have h4 : ¬ ((50 : Nat) ≤ ([] : List SearchResult).length) := by decide
    rw [if_neg h4]
    rw [ih rest (s + 1) (by omega), show s + 1 + n = s + (n + 1) from by omega]

/-- C8, counterexample to the claim as stated: the grep scan cap
(1000 files) is hit, a matching file lies just beyond it, and the
output is the bare no-match message — identical to the output without
the extra file — so the hit scan cap is not reported to the caller (nor
is it configurable: `maxFiles` is a local constant, not an input). -/
theorem searchCaps_counterexample :
    grepOutput "needle" "." sampleMatcher 50 false
        (List.replicate 1000 ("a.txt", ["hay"]) ++ [("b.txt", ["needle"])])
      = grepOutput "needle" "." sampleMatcher 50 false
          (List.replicate 1000 ("a.txt", ["hay"]))
    ∧ grepOutput "needle" "." sampleMatcher 50 false
        (List.replicate 1000 ("a.txt", ["hay"]) ++ [("b.txt", ["needle"])])
      = "No matches found for \"needle\" in ."
    ∧ (grepScan sampleMatcher 50 false [("b.txt", ["needle"])] 0 []).results ≠ [] := by
  have hscan1 : grepScan sampleMatcher 50 false
      (List.replicate 1000 ("a.txt", ["hay"]) ++ [("b.txt", ["needle"])]) 0 []
      = ⟨[], 1000⟩ := by
    rw [grepScan_skip_boring 1000 [("b.txt", ["needle"])] 0 (by decide)]
    rw [grepScan_cap_stops sampleMatcher 50 false _ _ _ (by decide)]
  have hscan2 : grepScan sampleMatcher 50 false
      (List.replicate 1000 ("a.txt", ["hay"])) 0 [] = ⟨[], 1000⟩ := by
    have h := grepScan_skip_boring 1000 [] 0 (by decide)
    rw [List.append_nil] at h
    rw [h]
    rfl
  have hout1 : grepOutput "needle" "." sampleMatcher 50 false
      (List.replicate 1000 ("a.txt", ["hay"]) ++ [("b.txt", ["needle"])])
      = "No matches found for \"needle\" in ." := by
    simp only [grepOutput]
    rw [hscan1]
    decide
  have hout2 : grepOutput "needle" "." sampleMatcher 50 false
      (List.replicate 1000 ("a.txt", ["hay"]))
      = "No matches found for \"needle\" in ." := by
    simp only [grepOutput]
    rw [hscan2]
    decide
  exact ⟨hout1.trans hout2.symm, hout1, by decide⟩

/-- Concrete instance of `searchCaps_correct`: the searched-file count
stays within the cap, a result cap of one is enforced and reported by
grep, and glob reports the files hidden beyond its result cap. -/
theorem searchCaps_correct_witness :
    (grepScan sampleMatcher 50 false [("b.txt", ["needle"])] 0 []).searched
      ≤ GREP_MAX_FILES
    ∧ (grepScan sampleMatcher 1 false [("c.txt", ["needle", "needle"])] 0
        []).results.length ≤ 1
    ∧ (∃ pre, grepOutput "needle" "." sampleMatcher 1 false
        [("c.txt", ["needle", "needle"])] = pre ++ grepLimitNote 1)
    ∧ (∃ pre, globOutput "*" "." false [] 1 [⟨"a.ts", 3⟩, ⟨"b.ts", 5⟩]
        = pre ++ globMoreNote
            ((globScan false [] [⟨"a.ts", 3⟩, ⟨"b.ts", 5⟩] 0 []).results.length - 1)) :=
  ⟨searchCaps_correct.1 sampleMatcher 50 false [("b.txt", ["needle"])],
   searchCaps_correct.2.1 sampleMatcher 1 false [("c.txt", ["needle", "needle"])]
     (by decide),
   searchCaps_correct.2.2.1 "needle" "." sampleMatcher 1 false
     [("c.txt", ["needle", "needle"])] (by decide) (by decide),
   searchCaps_correct.2.2.2.2 "*" "." false [] 1 [⟨"a.ts", 3⟩, ⟨"b.ts", 5⟩]
     (by decide)⟩

end Phi
